import Mathlib

/-!
Verification of the CDCL SAT solver in `solver.go` (package `sat`).

The solver state and the operations of `solver.go` are embedded shallowly.
The `trail` type, the `cnf` literal/clause helpers and the formula-ingestion
entry points are declared in other files of the repository that are not part
of this snapshot; those are modelled from the specification (§3, §4.1, §6)
and carry a doc comment saying so.  Go maps (`cH`, `cP`, `vars`,
`reasonMap`) are modelled as lists used as sets / association lists; Go map
iteration order is unspecified, so wherever the code iterates a map the
iteration order is either irrelevant to the claims (sets compared by
membership) or made an explicit parameter (`selectLiteral`).  The unbounded
`for` loops of the Go code are given explicit fuel and return `Option`.
-/

namespace GoSat

/-- `cnf.Literal.Negate`; a `cnf.Literal` is a nonzero signed integer
(here plain `Int`), its sign the polarity. -/
def negate (l : Int) : Int := -l

/-- `cnf.Clause`: ordered collection of literals (a disjunction). -/
abbrev Clause := List Int

/-- `cnf.Formula`: ordered collection of clauses (a conjunction). -/
abbrev Formula := List Clause

/-- `satResult` of solver.go (undef / unsat / sat). -/
inductive SatResult
  | undef
  | unsat
  | sat
deriving DecidableEq

deriving instance DecidableEq for Except

/-- Modelled from the spec (§3 "Trail entry", §4.1): one trail entry, a
literal plus whether it was asserted as a decision.  The level and reason
are recovered from position (level) and the solver's `reasonMap` (reason),
exactly as `solver.go` uses them. -/
structure TrailElem where
  lit : Int
  decision : Bool
deriving DecidableEq

/-- Modelled from the spec (§4.1): the trail `m *trail` of the solver.  The
element list is kept newest-first, so Go's `append` is `cons` here and Go's
backward scans (`for i := len(elems)-1; ...`) are forward scans. -/
structure Trail where
  elems : List TrailElem
deriving DecidableEq

/-- Whether literal `l` itself has been asserted on the trail. -/
def Trail.isSet (m : Trail) (l : Int) : Bool :=
  m.elems.any (fun e => e.lit == l)

/-- `trail.Len()`: number of trail entries. -/
def Trail.len (m : Trail) : Nat := m.elems.length

/-- Number of decision entries in an element list. -/
def decCount (es : List TrailElem) : Nat :=
  (es.filter (fun e => e.decision)).length

/-- `trail.CurrentLevel()` / `trail.DecisionsLen()` (spec §4.1
`currentLevel` and `openDecisions`): the number of open decision levels. -/
def Trail.currentLevel (m : Trail) : Nat := decCount m.elems

/-- Modelled from the spec (§4.1 `levelOf`): decision level of the newest
occurrence of literal `l`, or 0 when `l` is not on the trail (the Go map
`set` yields 0 for a missing key). -/
def levelInElems : List TrailElem → Int → Nat
  | [], _ => 0
  | e :: rest, l =>
      if e.lit = l then decCount (e :: rest) else levelInElems rest l

/-- Decision level of literal `l` per the trail (0 if unassigned). -/
def Trail.level (m : Trail) (l : Int) : Nat := levelInElems m.elems l

/-- Modelled from the spec (§4.1 `assert` and `newDecisionLevel`): append a
literal; a decision opens a new level, which position recovers. -/
def Trail.assert (m : Trail) (l : Int) (d : Bool) : Trail :=
  ⟨⟨l, d⟩ :: m.elems⟩

/-- Longest newest-first suffix of the elements whose decision count is at
most `lv` (the part of the trail at levels ≤ `lv`). -/
def trimElemsToLevel : List TrailElem → Nat → List TrailElem
  | [], _ => []
  | e :: rest, lv =>
      if decCount (e :: rest) ≤ lv then e :: rest
      else trimElemsToLevel rest lv

/-- Modelled from the spec (§4.1 `trimToLevel`): unassign every variable at
levels above `lv`, discarding those entries; no-op if already at or below
`lv`. -/
def Trail.trimToLevel (m : Trail) (lv : Nat) : Trail :=
  ⟨trimElemsToLevel m.elems lv⟩

/-- A literal is falsified iff its negation is asserted. -/
def Trail.litFalse (m : Trail) (l : Int) : Bool := m.isSet (negate l)

/-- A literal's variable is unassigned: neither it nor its negation is set. -/
def Trail.isUndef (m : Trail) (l : Int) : Bool :=
  !m.isSet l && !m.isSet (negate l)

/-- Modelled from the spec (§4.1 `isUnit`): every literal of `c` other than
`l` is falsified and `l` is unassigned. -/
def Trail.isUnit (m : Trail) (c : Clause) (l : Int) : Bool :=
  (c.all fun l' => l' == l || m.litFalse l') && m.isUndef l

/-- A clause all of whose literals are falsified. -/
def Trail.clauseFalse (m : Trail) (c : Clause) : Bool :=
  c.all fun l => m.litFalse l

/-- Modelled from the spec (§4.1 `isFormulaFalse`): the first clause of the
formula all of whose literals are currently falsified, if any. -/
def isFormulaFalse (m : Trail) (f : Formula) : Option Clause :=
  f.find? fun c => m.clauseFalse c

/-- The `Solver` struct of solver.go (the fields the search uses).  Go maps
become lists: `reasonMap` an association list (newest binding first, as a
Go map overwrite), `vars`, `cH`, `cP` lists used as sets. -/
structure Solver where
  result : SatResult
  f : Formula
  m : Trail
  reasonMap : List (Int × Clause)
  vars : List Int
  decideLiterals : List Int
  c : Clause
  cH : List Int
  cP : List Int
  cL : Int
  cN : Int
deriving DecidableEq

/-- Lookup in the reason map (Go: `s.reasonMap[lit]`, nil when missing). -/
def lookupReason (rm : List (Int × Clause)) (l : Int) : Option Clause :=
  match rm.find? (fun p => p.fst == l) with
  | some p => some p.snd
  | none => none

/-- `New()`: fresh solver with everything empty and result undef. -/
def newSolver : Solver :=
  { result := .undef, f := [], m := ⟨[]⟩, reasonMap := [], vars := []
    decideLiterals := [], c := [], cH := [], cP := [], cL := 0, cN := 0 }

/-- Insert the variables (absolute values) of a clause into the variable
set, keeping first-seen order. -/
def addVarsOfClause (vs : List Int) (c : Clause) : List Int :=
  c.foldl (fun vs l => if ((l.natAbs : Int)) ∈ vs then vs else vs ++ [(l.natAbs : Int)]) vs

/-- Modelled from the spec (§6 formula ingestion; `AddFormula`/`AddClause`
are not in this snapshot): append the clauses and record the variable
universe as the set of absolute values appearing. -/
def addFormula (s : Solver) (f : Formula) : Solver :=
  { s with f := s.f ++ f, vars := f.foldl addVarsOfClause s.vars }

/-- `Solver.addConflictLiteral`: skip literals already in H and literals
whose negation is assigned at level 0 (or unassigned); otherwise add to H
and either count at the current level (N) or record in P. -/
def addConflictLiteral (s : Solver) (l : Int) : Solver :=
  if l ∈ s.cH then s
  else if s.m.level (negate l) > 0 then
    if s.m.level (negate l) = s.m.currentLevel then
      { s with cH := l :: s.cH, cN := s.cN + 1 }
    else
      { s with cH := l :: s.cH, cP := l :: s.cP }
  else s

/-- `Solver.removeConflictLiteral`. -/
def removeConflictLiteral (s : Solver) (l : Int) : Solver :=
  if s.m.level (negate l) = s.m.currentLevel then
    { s with cH := s.cH.erase l, cN := s.cN - 1 }
  else
    { s with cH := s.cH.erase l, cP := s.cP.erase l }

/-- The backward trail scan shared by `applyConflict` and `applyExplain`:
newest trail literal whose negation is in `cH`; if none matches, the Go
loop leaves the oldest literal in `cL` (or `d` if the trail is empty). -/
def computeCL : List TrailElem → List Int → Int → Int
  | [], _, d => d
  | [e], _, _ => e.lit
  | e :: e' :: rest, cH, d =>
      if negate e.lit ∈ cH then e.lit else computeCL (e' :: rest) cH d

/-- The final statement shared by `applyConflict` and `applyExplain`: store
the newest trail literal whose negation is in H into `cL`. -/
def setCL (s : Solver) : Solver :=
  { s with cL := computeCL s.m.elems s.cH s.cL }

/-- `Solver.applyConflict`: rebuild H, P, N from the conflict clause and
locate the last asserted literal L. -/
def applyConflict (s : Solver) (c : Clause) : Solver :=
  setCL (c.foldl addConflictLiteral { s with cH := [], cP := [], cN := 0 })

/-- The resolution loop of `Solver.applyExplain`: add every literal of the
reason clause of `lit` other than `lit` itself. -/
def resolveReason (s : Solver) (lit : Int) : Solver :=
  ((lookupReason s.reasonMap lit).getD []).foldl
    (fun t l => if l = lit then t else addConflictLiteral t l) s

/-- `Solver.applyExplain`: resolve on `lit` using its reason clause, then
relocate the last asserted literal L. -/
def applyExplain (s : Solver) (lit : Int) : Solver :=
  setCL (resolveReason (removeConflictLiteral s (negate lit)) lit)

/-- `Solver.applyExplainUIP`: explain until N = 1, then build the learned
clause C = P ∪ \x7b¬L\x7d (P in the model's list order; the Go map iteration
order is unspecified and the clause is treated as a set). -/
def applyExplainUIP : Nat → Solver → Option Solver
  | 0, _ => none
  | fuel + 1, s =>
      if s.cN ≠ 1 then applyExplainUIP fuel (applyExplain s s.cL)
      else some { s with c := s.cP ++ [negate s.cL] }

/-- Backjump target level: maximum over P of the level of the literal's
negation (the Go map read yields 0 for a missing key; 0 if P is empty). -/
def backjumpLevel (s : Solver) : Nat :=
  s.cP.foldl (fun acc l => max acc (s.m.level (negate l))) 0

/-- `Solver.applyBackjump`: trim the trail to the target level, assert ¬L
there and record the learned clause as its reason. -/
def applyBackjump (s : Solver) : Solver :=
  { s with m := (s.m.trimToLevel (backjumpLevel s)).assert (negate s.cL) false
           reasonMap := (negate s.cL, s.c) :: s.reasonMap }

/-- Scan of one clause for a unit literal (inner loop of `unitPropagate`,
first-in-clause order). -/
def findUnitInClause (m : Trail) (c : Clause) : Option Int :=
  c.find? fun l => m.isUnit c l

/-- Scan of the formula for the first currently-unit clause together with
its forced literal (first-in-formula order). -/
def findUnit (m : Trail) : Formula → Option (Clause × Int)
  | [] => none
  | c :: rest =>
      match findUnitInClause m c with
      | some l => some (c, l)
      | none => findUnit m rest

/-- One propagation step: assert the forced literal (not a decision) and
record the unit clause as its reason. -/
def propagateOne (s : Solver) (c : Clause) (l : Int) : Solver :=
  { s with m := s.m.assert l false, reasonMap := (l, c) :: s.reasonMap }

/-- `Solver.unitPropagate`: repeatedly assert the first unit clause's
forced literal; stop at a fixpoint, or right after an assertion once the
assignment falsifies some clause. -/
def unitPropagate : Nat → Solver → Option Solver
  | 0, _ => none
  | fuel + 1, s =>
      match findUnit s.m s.f with
      | none => some s
      | some (c, l) =>
          match isFormulaFalse (propagateOne s c l).m (propagateOne s c l).f with
          | some _ => some (propagateOne s c l)
          | none => unitPropagate fuel (propagateOne s c l)

/-- The normalization `if lit < 0 \x7b lit = -lit \x7d` applied to each trail
literal when `selectLiteral` builds `tMap`. -/
def absLit (l : Int) : Int := if l < 0 then -l else l

/-- The `tMap` of `Solver.selectLiteral`: the absolute values of the
literals currently on the trail. -/
def takenVars (s : Solver) : List Int :=
  s.m.elems.map fun e => absLit e.lit

/-- `Solver.selectLiteral`.  The Go code iterates the `vars` map in
unspecified order, so the iteration order is the explicit parameter
`order`; the panic on a taken decide-literal becomes `Except.error`. -/
def selectLiteral (s : Solver) (order : List Int) : Except String (Int × Solver) :=
  match s.decideLiterals with
  | d :: rest =>
      if d ∈ takenVars s then Except.error "decideLiteral taken"
      else Except.ok (d, { s with decideLiterals := rest })
  | [] =>
      match order.find? (fun raw => !((takenVars s).contains raw)) with
      | some raw => Except.ok (raw, s)
      | none => Except.ok ((0 : Int), s)

/-- Outcome of one iteration of the solve loop: a final answer, another
iteration (with or without having consumed a decision order), or a fatal
condition (`selectLiteral` panic / inner fuel exhausted). -/
inductive StepRes
  | done (r : Bool) (s : Solver)
  | next (s : Solver)
  | nextD (s : Solver)
  | fail
deriving DecidableEq

/-- One iteration of the `for` loop of `Solver.Solve` (lines 93-141):
propagate, then either handle a conflict (analysis, optional learning,
backjump) or report satisfaction or decide.  Propagation is given fuel
`|vars|+1` and conflict analysis fuel `trail length + 1`, which the
termination development shows to be sufficient on well-formed states. -/
def solveStep (ord : List Int) (s : Solver) : StepRes :=
  match unitPropagate (s.vars.length + 1) s with
  | none => .fail
  | some s₁ =>
      match isFormulaFalse s₁.m s₁.f with
      | some cc =>
          if (applyConflict s₁ cc).m.currentLevel = 0 then .done false (applyConflict s₁ cc)
          else
            match applyExplainUIP ((applyConflict s₁ cc).m.len + 1) (applyConflict s₁ cc) with
            | none => .fail
            | some s₃ =>
                .next (applyBackjump
                  (if s₃.c.length > 1 then { s₃ with f := s₃.f ++ [s₃.c] } else s₃))
      | none =>
          if s₁.m.len = s₁.vars.length then .done true s₁
          else
            match selectLiteral s₁ ord with
            | .error _ => .fail
            | .ok (lit, s₂) => .nextD { s₂ with m := s₂.m.assert lit true }

/-- The solve loop, with fuel bounding the number of iterations.  `ords`
supplies one variable-iteration order per decision (Go re-randomizes map
order on every call); when exhausted, the stored variable list is used. -/
def solveLoop : Nat → List (List Int) → Solver → Option (Bool × Solver)
  | 0, _, _ => none
  | fuel + 1, ords, s =>
      match solveStep (ords.headD s.vars) s with
      | .done r s' => some (r, s')
      | .next s' => solveLoop fuel ords s'
      | .nextD s' => solveLoop fuel ords.tail s'
      | .fail => none

/-- `Solver.Solve` (lines 77-144): return the cached result when one is
set, otherwise run the search loop.  Note the loop itself never writes
`result`. -/
def solve (fuel : Nat) (ords : List (List Int)) (s : Solver) : Option (Bool × Solver) :=
  if s.result ≠ SatResult.undef then some (s.result == SatResult.sat, s)
  else solveLoop fuel ords s

/-! ### Concrete states used to instantiate the theorems -/

/-- The solver state `Solve` on the formula `[[4]]` returns: variable 4
forced at level 0.  Its `result` field is still `undef`. -/
def exSat4 : Solver :=
  { result := .undef, f := [[4]], m := ⟨[⟨4, false⟩]⟩, reasonMap := [(4, [4])]
    vars := [4], decideLiterals := [], c := [], cH := [], cP := [], cL := 0, cN := 0 }

/-- State after unit propagation on `[[4], [6], [-4, -6]]`: 4 and 6 forced
at level 0, the third clause falsified. -/
def exUnsatProp : Solver :=
  { result := .undef, f := [[4], [6], [-4, -6]], m := ⟨[⟨6, false⟩, ⟨4, false⟩]⟩
    reasonMap := [(6, [6]), (4, [4])], vars := [4, 6], decideLiterals := []
    c := [], cH := [], cP := [], cL := 0, cN := 0 }

/-- A mid-search state for `[[-1,-2,3], [-1,-2,-3]]`: decisions 1 and 2
taken, 3 forced by the first clause; the next step finds the second clause
falsified, learns `[-1,-2]` and backjumps. -/
def exPreConflict : Solver :=
  { result := .undef, f := [[-1, -2, 3], [-1, -2, -3]]
    m := ⟨[⟨3, false⟩, ⟨2, true⟩, ⟨1, true⟩]⟩, reasonMap := [(3, [-1, -2, 3])]
    vars := [1, 2, 3], decideLiterals := [], c := [], cH := [], cP := [], cL := 0, cN := 0 }

/-- The state `solveStep` produces from `exPreConflict`: clause `[-1,-2]`
learned and appended, trail backjumped to level 1 with `-2` asserted. -/
def exPostConflict : Solver :=
  { result := .undef, f := [[-1, -2, 3], [-1, -2, -3], [-1, -2]]
    m := ⟨[⟨-2, false⟩, ⟨1, true⟩]⟩, reasonMap := [(-2, [-1, -2]), (3, [-1, -2, 3])]
    vars := [1, 2, 3], decideLiterals := [], c := [-1, -2], cH := [-2, -1], cP := [-1]
    cL := 2, cN := 1 }

/-- The state conflict analysis reaches on `exPreConflict` after the
conflict on `[-1,-2,-3]`: the first UIP is found with N = 1, P = \x7b-1\x7d,
L = 2 and learned clause `[-1,-2]`. -/
def exAnalysisExit : Solver :=
  { result := .undef, f := [[-1, -2, 3], [-1, -2, -3]]
    m := ⟨[⟨3, false⟩, ⟨2, true⟩, ⟨1, true⟩]⟩, reasonMap := [(3, [-1, -2, 3])]
    vars := [1, 2, 3], decideLiterals := [], c := [-1, -2], cH := [-2, -1], cP := [-1]
    cL := 2, cN := 1 }

/-- A state whose decide-literal override names variable 4 negatively while
variable 4 is already assigned on the trail. -/
def exTakenOverride : Solver :=
  { result := .undef, f := [[4]], m := ⟨[⟨4, false⟩]⟩, reasonMap := [(4, [4])]
    vars := [4], decideLiterals := [-4], c := [], cH := [], cP := [], cL := 0, cN := 0 }

/-- The propagation process of spec §4.2, as a relation between the state
at entry and the state at which `unitPropagate` stops: repeatedly the first
currently-unit clause (first-in-formula order) has its forced literal
asserted with that clause recorded as reason; the chain ends either at a
fixpoint where no clause is unit, or immediately after an assertion that
makes the assignment falsify some clause — no further literal is asserted
past that point. -/
inductive UnitChain : Solver → Solver → Prop
  | fixpoint (s : Solver) :
      findUnit s.m s.f = none → UnitChain s s
  | halt (s : Solver) (c : Clause) (l : Int) :
      findUnit s.m s.f = some (c, l) →
      isFormulaFalse (propagateOne s c l).m (propagateOne s c l).f ≠ none →
      UnitChain s (propagateOne s c l)
  | more (s s' : Solver) (c : Clause) (l : Int) :
      findUnit s.m s.f = some (c, l) →
      isFormulaFalse (propagateOne s c l).m (propagateOne s c l).f = none →
      UnitChain (propagateOne s c l) s' →
      UnitChain s s'

/-- The solver fields that conflict analysis (`applyConflict`,
`applyExplain`, `applyExplainUIP`) never modifies. -/
def coreEq (s t : Solver) : Prop :=
  t.result = s.result ∧ t.f = s.f ∧ t.m = s.m ∧ t.reasonMap = s.reasonMap ∧
  t.vars = s.vars ∧ t.decideLiterals = s.decideLiterals

/-- Well-formedness of the trail: no variable occurs twice (spec §4.1:
asserting an already-assigned variable is a contract violation) and no
literal is 0 (spec §6: literals are nonzero). -/
def TrailWF (m : Trail) : Prop :=
  (m.elems.map (fun e => e.lit.natAbs)).Nodup ∧ ∀ e ∈ m.elems, e.lit ≠ 0

/-- Number of literals of `cH` whose negation is assigned at the current
decision level of `m` — the quantity `cN` tracks. -/
def countAtCurrent (m : Trail) (cH : List Int) : Nat :=
  (cH.filter (fun l => m.level (negate l) = m.currentLevel)).length

/-- The invariant of the conflict working set (spec §3): H holds literals
whose negation is assigned at a nonzero level, P is exactly the part of H
assigned away from the current level, and N counts the rest. -/
def AnalysisInv (s : Solver) : Prop :=
  s.cH.Nodup ∧ s.cP.Nodup ∧
  (∀ l ∈ s.cH, 0 < s.m.level (negate l)) ∧
  (∀ l ∈ s.cP, l ∈ s.cH ∧ s.m.level (negate l) ≠ s.m.currentLevel) ∧
  (∀ l ∈ s.cH, s.m.level (negate l) ≠ s.m.currentLevel → l ∈ s.cP) ∧
  s.cN = (countAtCurrent s.m s.cH : Int)

/-- The newest (most recently asserted) trail literal whose negation lies
in `cH`, if any. -/
def lastAsserted (es : List TrailElem) (cH : List Int) : Option Int :=
  match es with
  | [] => none
  | e :: rest => if negate e.lit ∈ cH then some e.lit else lastAsserted rest cH

/-- `x` is the most recently asserted trail literal whose negation is in
`cH` — the defining property of `cL` (spec §3: "L = most-recently-asserted
literal on the trail whose negation is in H"). -/
def IsLastLit (m : Trail) (cH : List Int) (x : Int) : Prop :=
  lastAsserted m.elems cH = some x

instance decidableTrailWF (m : Trail) : Decidable (TrailWF m) := by
  unfold TrailWF
  exact inferInstance

instance decidableAnalysisInv (s : Solver) : Decidable (AnalysisInv s) := by
  unfold AnalysisInv
  exact inferInstance

instance decidableIsLastLit (m : Trail) (cH : List Int) (x : Int) :
    Decidable (IsLastLit m cH x) := by
  unfold IsLastLit
  exact inferInstance

/-- The well-formedness invariant the solve loop maintains, relative to the
fixed variable universe `V` and the originally ingested formula `f0`: the
variable set never changes, its members are positive and distinct, every
literal of the (growing) formula is nonzero with its variable in `V`, the
trail is well-formed over `V`, `f0` stays a prefix of the formula, the
trail below the current decision level never falsifies the formula, and no
decide-literal override is installed. -/
def SearchInv (V : List Int) (f0 : Formula) (s : Solver) : Prop :=
  s.vars = V ∧
  V.Nodup ∧ (∀ v ∈ V, 0 < v) ∧
  (∀ c ∈ s.f, ∀ l ∈ c, l ≠ 0 ∧ ((l.natAbs : Int)) ∈ V) ∧
  TrailWF s.m ∧
  (∀ e ∈ s.m.elems, ((e.lit.natAbs : Int)) ∈ V) ∧
  (∃ t, s.f = f0 ++ t) ∧
  (∀ lv, lv < s.m.currentLevel → isFormulaFalse (s.m.trimToLevel lv) s.f = none) ∧
  s.decideLiterals = []

/-- Reasons are coherent with trail order (spec §4.2/§4.4: a propagated
literal's reason clause had every other literal falsified when the literal
was asserted): for every non-decision trail entry, its recorded reason
exists and every other literal of that reason has its negation asserted
strictly earlier (deeper in the newest-first element list). -/
def ReasonWF (m : Trail) (rm : List (Int × Clause)) : Prop :=
  ∀ pre e suf, m.elems = pre ++ e :: suf → e.decision = false →
    ∃ c, lookupReason rm e.lit = some c ∧
      ∀ l ∈ c, l ≠ e.lit → ∃ e', e' ∈ suf ∧ e'.lit = negate l

/-- Termination measure of the search: each trail entry at decision level
`lv` weighs `(N+1)^(N-lv)`, so entries at lower levels dominate any number
of entries above them (`N` bounds the trail length). -/
def muElems (N : Nat) : List TrailElem → Nat
  | [] => 0
  | e :: r => (N + 1) ^ (N - decCount (e :: r)) + muElems N r

/-- The measure applied to a trail. -/
def mu (N : Nat) (m : Trail) : Nat := muElems N m.elems

/-- The invariant bundle of the termination argument: the search invariant
together with reason coherence. -/
def SolveInv (V : List Int) (f0 : Formula) (s : Solver) : Prop :=
  SearchInv V f0 s ∧ ReasonWF s.m s.reasonMap

/-! ### Theorems -/

theorem coreEq_refl (s : Solver) : coreEq s s :=
  ⟨rfl, rfl, rfl, rfl, rfl, rfl⟩

theorem coreEq_trans {s t u : Solver} (h₁ : coreEq s t) (h₂ : coreEq t u) :
    coreEq s u := by
  obtain ⟨a₁, b₁, c₁, d₁, e₁, f₁⟩ := h₁
  obtain ⟨a₂, b₂, c₂, d₂, e₂, f₂⟩ := h₂
  exact ⟨a₂.trans a₁, b₂.trans b₁, c₂.trans c₁, d₂.trans d₁, e₂.trans e₁, f₂.trans f₁⟩

theorem addConflictLiteral_coreEq (s : Solver) (l : Int) :
    coreEq s (addConflictLiteral s l) := by
  unfold addConflictLiteral
  split
  · exact coreEq_refl s
  · split
    · split
      · exact ⟨rfl, rfl, rfl, rfl, rfl, rfl⟩
      · exact ⟨rfl, rfl, rfl, rfl, rfl, rfl⟩
    · exact coreEq_refl s

theorem removeConflictLiteral_coreEq (s : Solver) (l : Int) :
    coreEq s (removeConflictLiteral s l) := by
  unfold removeConflictLiteral
  split
  · exact ⟨rfl, rfl, rfl, rfl, rfl, rfl⟩
  · exact ⟨rfl, rfl, rfl, rfl, rfl, rfl⟩

theorem foldl_coreEq (g : Solver → Int → Solver)
    (hg : ∀ t l, coreEq t (g t l)) :
    ∀ (ls : List Int) (s : Solver), coreEq s (ls.foldl g s) := by
  intro ls
  induction ls with
  | nil => intro s; exact coreEq_refl s
  | cons a as ih =>
      intro s
      exact coreEq_trans (hg s a) (ih (g s a))

theorem setCL_coreEq (s : Solver) : coreEq s (setCL s) :=
  ⟨rfl, rfl, rfl, rfl, rfl, rfl⟩

theorem applyConflict_coreEq (s : Solver) (c : Clause) :
    coreEq s (applyConflict s c) := by
  unfold applyConflict
  refine coreEq_trans ?_ (coreEq_trans
    (foldl_coreEq addConflictLiteral addConflictLiteral_coreEq c
      { s with cH := [], cP := [], cN := 0 }) (setCL_coreEq _))
  exact ⟨rfl, rfl, rfl, rfl, rfl, rfl⟩

theorem resolveReason_coreEq (s : Solver) (lit : Int) :
    coreEq s (resolveReason s lit) := by
  unfold resolveReason
  refine foldl_coreEq _ (fun t l => ?_) _ s
  by_cases h : l = lit
  · rw [if_pos h]; exact coreEq_refl t
  · rw [if_neg h]; exact addConflictLiteral_coreEq t l

theorem applyExplain_coreEq (s : Solver) (lit : Int) :
    coreEq s (applyExplain s lit) := by
  unfold applyExplain
  exact coreEq_trans (removeConflictLiteral_coreEq s (negate lit))
    (coreEq_trans (resolveReason_coreEq _ lit) (setCL_coreEq _))

theorem applyExplainUIP_coreEq :
    ∀ (fuel : Nat) (s s' : Solver), applyExplainUIP fuel s = some s' →
      coreEq s s' := by
  intro fuel
  induction fuel with
  | zero => intro s s' h; exact Option.noConfusion h
  | succ n ih =>
      intro s s' h
      unfold applyExplainUIP at h
      by_cases hN : s.cN ≠ 1
      · rw [if_pos hN] at h
        exact coreEq_trans (applyExplain_coreEq s s.cL) (ih _ _ h)
      · rw [if_neg hN] at h
        simp only [Option.some.injEq] at h
        rw [← h]
        exact ⟨rfl, rfl, rfl, rfl, rfl, rfl⟩

/-- At exit of `applyExplainUIP`, the learned clause is the P-list followed
by ¬L, and N is 1. -/
theorem applyExplainUIP_c_shape :
    ∀ (fuel : Nat) (s s' : Solver), applyExplainUIP fuel s = some s' →
      s'.c = s'.cP ++ [negate s'.cL] ∧ s'.cN = 1 := by
  intro fuel
  induction fuel with
  | zero => intro s s' h; exact Option.noConfusion h
  | succ n ih =>
      intro s s' h
      unfold applyExplainUIP at h
      by_cases hN : s.cN ≠ 1
      · rw [if_pos hN] at h
        exact ih _ _ h
      · rw [if_neg hN] at h
        simp only [Option.some.injEq] at h
        rw [← h]
        simp only [ne_eq, not_not] at hN
        exact ⟨rfl, hN⟩

/-- Unit propagation only appends to the trail and the reason map; every
other solver field is untouched. -/
theorem unitPropagate_const :
    ∀ (fuel : Nat) (s s' : Solver), unitPropagate fuel s = some s' →
      s'.result = s.result ∧ s'.f = s.f ∧ s'.vars = s.vars ∧
      s'.decideLiterals = s.decideLiterals ∧ s'.c = s.c ∧ s'.cH = s.cH ∧
      s'.cP = s.cP ∧ s'.cL = s.cL ∧ s'.cN = s.cN := by
  intro fuel
  induction fuel with
  | zero => intro s s' h; exact Option.noConfusion h
  | succ n ih =>
      intro s s' h
      unfold unitPropagate at h
      rcases hfu : findUnit s.m s.f with _ | ⟨c, l⟩
      · simp only [hfu, Option.some.injEq] at h
        rw [← h]
        exact ⟨rfl, rfl, rfl, rfl, rfl, rfl, rfl, rfl, rfl⟩
      · simp only [hfu] at h
        rcases hff : isFormulaFalse (propagateOne s c l).m (propagateOne s c l).f with _ | cc
        · simp only [hff] at h
          exact ih (propagateOne s c l) s' h
        · simp only [hff, Option.some.injEq] at h
          rw [← h]
          exact ⟨rfl, rfl, rfl, rfl, rfl, rfl, rfl, rfl, rfl⟩

/-- A successful `selectLiteral` only pops the decide-literal override list;
all other fields are returned unchanged. -/
theorem selectLiteral_const (s : Solver) (order : List Int) (l : Int) (s' : Solver)
    (h : selectLiteral s order = Except.ok (l, s')) :
    s'.result = s.result ∧ s'.f = s.f ∧ s'.m = s.m ∧ s'.reasonMap = s.reasonMap ∧
    s'.vars = s.vars ∧ s'.c = s.c ∧ s'.cH = s.cH ∧ s'.cP = s.cP ∧
    s'.cL = s.cL ∧ s'.cN = s.cN := by
  unfold selectLiteral at h
  rcases hd : s.decideLiterals with _ | ⟨d, rest⟩
  · simp only [hd] at h
    rcases hf : List.find? (fun raw => !(takenVars s).contains raw) order with _ | raw
    · simp only [hf, Except.ok.injEq, Prod.mk.injEq] at h
      rw [← h.2]
      exact ⟨rfl, rfl, rfl, rfl, rfl, rfl, rfl, rfl, rfl, rfl⟩
    · simp only [hf, Except.ok.injEq, Prod.mk.injEq] at h
      rw [← h.2]
      exact ⟨rfl, rfl, rfl, rfl, rfl, rfl, rfl, rfl, rfl, rfl⟩
  · simp only [hd] at h
    by_cases htk : d ∈ takenVars s
    · rw [if_pos htk] at h
      exact Except.noConfusion h
    · rw [if_neg htk] at h
      simp only [Except.ok.injEq, Prod.mk.injEq] at h
      rw [← h.2]
      exact ⟨rfl, rfl, rfl, rfl, rfl, rfl, rfl, rfl, rfl, rfl⟩

/-- **C7**.  When propagation surfaces a conflict: if no decision level is
open the step reports Unsatisfied (`done false`) with the trail untouched —
no backtracking is performed; otherwise the learned clause is appended to
the formula exactly when its length exceeds 1, the solver backjumps, and
the loop continues (`next`) back to propagation. -/
theorem c7_conflict_step (ord : List Int) (s s₁ : Solver) (cc : Clause)
    (hup : unitPropagate (s.vars.length + 1) s = some s₁)
    (hcc : isFormulaFalse s₁.m s₁.f = some cc) :
    ((applyConflict s₁ cc).m.currentLevel = 0 →
      solveStep ord s = .done false (applyConflict s₁ cc) ∧
      (applyConflict s₁ cc).m = s₁.m ∧ (applyConflict s₁ cc).f = s₁.f) ∧
    ((applyConflict s₁ cc).m.currentLevel ≠ 0 →
      ∀ s₃, applyExplainUIP ((applyConflict s₁ cc).m.len + 1) (applyConflict s₁ cc) = some s₃ →
        (1 < s₃.c.length →
          solveStep ord s = .next (applyBackjump { s₃ with f := s₃.f ++ [s₃.c] })) ∧
        (¬ 1 < s₃.c.length →
          solveStep ord s = .next (applyBackjump s₃))) := by
  have hcore := applyConflict_coreEq s₁ cc
  constructor
  · intro h0
    refine ⟨?_, hcore.2.2.1, hcore.2.1⟩
    unfold solveStep
    simp only [hup, hcc]
    rw [if_pos h0]
  · intro hne s₃ hUIP
    constructor
    · intro hlen
      unfold solveStep
      simp only [hup, hcc]
      rw [if_neg hne]
      simp only [hUIP]
      rw [if_pos (by omega : s₃.c.length > 1)]
    · intro hlen
      unfold solveStep
      simp only [hup, hcc]
      rw [if_neg hne]
      simp only [hUIP]
      rw [if_neg (by omega : ¬ s₃.c.length > 1)]

/-- Witness for C7: on `[[4],[6],[-4,-6]]` propagation forces 4 and 6 at
level 0 and falsifies the third clause; no decision level is open, so the
step reports Unsatisfied with the trail untouched. -/
theorem c7_conflict_step_witness :
    solveStep [] (addFormula newSolver [[4], [6], [-4, -6]]) =
      .done false (applyConflict exUnsatProp [-4, -6]) ∧
    (applyConflict exUnsatProp [-4, -6]).m = exUnsatProp.m ∧
    (applyConflict exUnsatProp [-4, -6]).f = exUnsatProp.f :=
  (c7_conflict_step [] (addFormula newSolver [[4], [6], [-4, -6]]) exUnsatProp
    [-4, -6] (by decide) (by decide)).1 (by decide)

/-- **C8**.  The formula never shrinks during a solve step and grows only by
appending a learned clause of length above 1; a learned clause of length 1
(equivalently, empty P) is never inserted into the formula, and an empty P
makes the backjump target level 0, the trail being truncated to level 0
with ¬L asserted there. -/
theorem c8_formula_only_grows (ord : List Int) (s : Solver) :
    (∀ s', solveStep ord s = .next s' →
        s'.f = s.f ∨ ∃ lc, 1 < lc.length ∧ s'.f = s.f ++ [lc]) ∧
    (∀ s', solveStep ord s = .nextD s' → s'.f = s.f) ∧
    (∀ r s', solveStep ord s = .done r s' → s'.f = s.f) ∧
    (∀ t : Solver, t.cP = [] →
        backjumpLevel t = 0 ∧
        (applyBackjump t).m = (t.m.trimToLevel 0).assert (negate t.cL) false ∧
        (applyBackjump t).f = t.f) ∧
    (∀ (fuel : Nat) (t t' : Solver), applyExplainUIP fuel t = some t' →
        (t'.c.length = 1 ↔ t'.cP = [])) := by
  refine ⟨?_, ?_, ?_, ?_, ?_⟩
  · intro s' hstep
    unfold solveStep at hstep
    rcases hup : unitPropagate (s.vars.length + 1) s with _ | s₁
    · simp only [hup] at hstep
      exact StepRes.noConfusion hstep
    · simp only [hup] at hstep
      have hupf := (unitPropagate_const _ _ _ hup).2.1
      rcases hff : isFormulaFalse s₁.m s₁.f with _ | cc
      · simp only [hff] at hstep
        split at hstep
        · exact StepRes.noConfusion hstep
        · rcases hsel : selectLiteral s₁ ord with e | ⟨lit, s₂⟩
          · simp only [hsel] at hstep
            exact StepRes.noConfusion hstep
          · simp only [hsel] at hstep
            exact StepRes.noConfusion hstep
      · simp only [hff] at hstep
        split at hstep
        · exact StepRes.noConfusion hstep
        · rcases hUIP : applyExplainUIP ((applyConflict s₁ cc).m.len + 1) (applyConflict s₁ cc)
            with _ | s₃
          · simp only [hUIP] at hstep
            exact StepRes.noConfusion hstep
          · simp only [hUIP, StepRes.next.injEq] at hstep
            have hf3 : s₃.f = s.f := by
              rw [(applyExplainUIP_coreEq _ _ _ hUIP).2.1,
                (applyConflict_coreEq s₁ cc).2.1, hupf]
            by_cases hlen : s₃.c.length > 1
            · right
              refine ⟨s₃.c, hlen, ?_⟩
              rw [← hstep, if_pos hlen]
              show s₃.f ++ [s₃.c] = s.f ++ [s₃.c]
              rw [hf3]
            · left
              rw [← hstep, if_neg hlen]
              exact hf3
  · intro s' hstep
    unfold solveStep at hstep
    rcases hup : unitPropagate (s.vars.length + 1) s with _ | s₁
    · simp only [hup] at hstep
      exact StepRes.noConfusion hstep
    · simp only [hup] at hstep
      have hupf := (unitPropagate_const _ _ _ hup).2.1
      rcases hff : isFormulaFalse s₁.m s₁.f with _ | cc
      · simp only [hff] at hstep
        split at hstep
        · exact StepRes.noConfusion hstep
        · rcases hsel : selectLiteral s₁ ord with e | ⟨lit, s₂⟩
          · simp only [hsel] at hstep
            exact StepRes.noConfusion hstep
          · simp only [hsel, StepRes.nextD.injEq] at hstep
            rw [← hstep]
            show s₂.f = s.f
            rw [(selectLiteral_const _ _ _ _ hsel).2.1, hupf]
      · simp only [hff] at hstep
        split at hstep
        · exact StepRes.noConfusion hstep
        · rcases hUIP : applyExplainUIP ((applyConflict s₁ cc).m.len + 1) (applyConflict s₁ cc)
            with _ | s₃
          · simp only [hUIP] at hstep
            exact StepRes.noConfusion hstep
          · simp only [hUIP] at hstep
            exact StepRes.noConfusion hstep
  · intro r s' hstep
    unfold solveStep at hstep
    rcases hup : unitPropagate (s.vars.length + 1) s with _ | s₁
    · simp only [hup] at hstep
      exact StepRes.noConfusion hstep
    · simp only [hup] at hstep
      have hupf := (unitPropagate_const _ _ _ hup).2.1
      rcases hff : isFormulaFalse s₁.m s₁.f with _ | cc
      · simp only [hff] at hstep
        split at hstep
        · simp only [StepRes.done.injEq] at hstep
          rw [← hstep.2]
          exact hupf
        · rcases hsel : selectLiteral s₁ ord with e | ⟨lit, s₂⟩
          · simp only [hsel] at hstep
            exact StepRes.noConfusion hstep
          · simp only [hsel] at hstep
            exact StepRes.noConfusion hstep
      · simp only [hff] at hstep
        split at hstep
        · simp only [StepRes.done.injEq] at hstep
          rw [← hstep.2, (applyConflict_coreEq s₁ cc).2.1]
          exact hupf
        · rcases hUIP : applyExplainUIP ((applyConflict s₁ cc).m.len + 1) (applyConflict s₁ cc)
            with _ | s₃
          · simp only [hUIP] at hstep
            exact StepRes.noConfusion hstep
          · simp only [hUIP] at hstep
            exact StepRes.noConfusion hstep
  · intro t ht
    refine ⟨?_, ?_, rfl⟩
    · unfold backjumpLevel
      rw [ht]
      rfl
    · unfold applyBackjump
      simp only [backjumpLevel, ht, List.foldl_nil]
  · intro fuel t t' hUIP
    have hc := (applyExplainUIP_c_shape fuel t t' hUIP).1
    rw [hc]
    simp only [List.length_append, List.length_singleton, List.length_eq_zero]
    constructor
    · intro h
      have : t'.cP.length = 0 := by omega
      exact List.length_eq_zero.mp this
    · intro h
      rw [h]
      rfl

/-- Witness for C8: from the mid-search state on `[[-1,-2,3],[-1,-2,-3]]`
the step learns `[-1,-2]` (length 2) and appends it to the formula. -/
theorem c8_formula_only_grows_witness :
    exPostConflict.f = exPreConflict.f ∨
    ∃ lc, 1 < lc.length ∧ exPostConflict.f = exPreConflict.f ++ [lc] :=
  (c8_formula_only_grows [] exPreConflict).1 exPostConflict (by decide)

/-- **C1** (code bug evidence).  `Solve` on `[[4]]` returns true, but the
state it returns still has `result = undef`: no branch of the solve loop
ever assigns `s.result`, contradicting the code's own comment ("This can be
set already by a prior call to Solve") and the spec's result-caching
promise.  Consequently a second invocation does return the identical
result, but only by re-executing the search loop: with zero loop fuel it
cannot answer, while with fuel it reruns the loop to the same answer. -/
theorem c1_result_never_stored :
    solve 1 [] (addFormula newSolver [[4]]) = some (true, exSat4) ∧
    exSat4.result = SatResult.undef ∧
    solve 0 [] exSat4 = none ∧
    solve 1 [] exSat4 = some (true, exSat4) := by decide

/-- **C9** (counterexample).  On the formula `[[6,4]]` both variables are
unassigned and 4 < 6, yet with the iteration order `[6,4]` — a legal Go map
iteration order, and the insertion order of the variable set — the default
selection policy returns literal 6, not the lowest-numbered variable 4. -/
theorem c9_not_lowest_numbered :
    selectLiteral (addFormula newSolver [[6, 4]]) [6, 4] =
      Except.ok (6, addFormula newSolver [[6, 4]]) ∧
    (4 : Int) ∈ (addFormula newSolver [[6, 4]]).vars ∧
    (addFormula newSolver [[6, 4]]).m.isUndef 4 = true ∧
    (4 : Int) < 6 := by decide

/-- For a positive variable `v`, membership in `takenVars` is exactly:
some polarity of `v` is asserted on the trail. -/
theorem mem_takenVars_iff (s : Solver) (v : Int) (hv : 0 < v) :
    v ∈ takenVars s ↔ (s.m.isSet v = true ∨ s.m.isSet (negate v) = true) := by
  simp only [takenVars, List.mem_map, Trail.isSet, List.any_eq_true, beq_iff_eq, negate]
  constructor
  · rintro ⟨e, he, habs⟩
    simp only [absLit] at habs
    by_cases hsign : e.lit < 0
    · rw [if_pos hsign] at habs
      right; exact ⟨e, he, by omega⟩
    · rw [if_neg hsign] at habs
      left; exact ⟨e, he, by omega⟩
  · rintro (⟨e, he, hlit⟩ | ⟨e, he, hlit⟩) <;>
      exact ⟨e, he, by simp only [absLit]; split <;> omega⟩

/-- With no override supplied, a successful selection returns the state
unchanged and the first variable of the iteration order that has no current
assignment, as a positive literal. -/
theorem selectLiteral_default_spec (s : Solver) (order : List Int)
    (l : Int) (s' : Solver)
    (hd : s.decideLiterals = [])
    (hpos : ∀ v ∈ order, 0 < v)
    (hsome : ∃ v ∈ order, s.m.isUndef v = true)
    (hsel : selectLiteral s order = Except.ok (l, s')) :
    s' = s ∧ 0 < l ∧ l ∈ order ∧
    s.m.isSet l = false ∧ s.m.isSet (negate l) = false := by
  simp only [selectLiteral, hd] at hsel
  rcases hfind : order.find? (fun raw => !((takenVars s).contains raw))
    with _ | raw
  · exfalso
    obtain ⟨v, hv, hundef⟩ := hsome
    have hcontains := List.find?_eq_none.mp hfind v hv
    simp only [Bool.not_eq_true', Bool.not_eq_false, List.elem_iff] at hcontains
    have := (mem_takenVars_iff s v (hpos v hv)).mp hcontains
    simp only [Trail.isUndef, Bool.and_eq_true, Bool.not_eq_true'] at hundef
    rcases this with h | h
    · rw [hundef.1] at h; exact Bool.false_ne_true h
    · rw [hundef.2] at h; exact Bool.false_ne_true h
  · rw [hfind] at hsel
    have hmem : raw ∈ order := List.mem_of_find?_eq_some hfind
    have hpred := List.find?_some hfind
    simp only [Bool.not_eq_true'] at hpred
    simp only [Except.ok.injEq, Prod.mk.injEq] at hsel
    obtain ⟨hl, hs'⟩ := hsel
    subst hl
    refine ⟨hs'.symm, hpos raw hmem, hmem, ?_, ?_⟩
    · by_contra h
      simp only [Bool.not_eq_false] at h
      have hc := List.elem_iff.mpr ((mem_takenVars_iff s raw (hpos raw hmem)).mpr (Or.inl h))
      simp only [List.contains] at hpred
      rw [hpred] at hc
      exact Bool.false_ne_true hc
    · by_contra h
      simp only [Bool.not_eq_false] at h
      have hc := List.elem_iff.mpr ((mem_takenVars_iff s raw (hpos raw hmem)).mpr (Or.inr h))
      simp only [List.contains] at hpred
      rw [hpred] at hc
      exact Bool.false_ne_true hc

/-- **C9** (amended).  With no override supplied, the literal selected for
the next decision is the first variable in the (unspecified) map iteration
order that has no current assignment, asserted with positive polarity — an
unassigned variable of the order, but not necessarily the lowest-numbered
one. -/
theorem c9_selects_unassigned_positive (s : Solver) (order : List Int)
    (l : Int) (s' : Solver)
    (hd : s.decideLiterals = [])
    (hpos : ∀ v ∈ order, 0 < v)
    (hsome : ∃ v ∈ order, s.m.isUndef v = true)
    (hsel : selectLiteral s order = Except.ok (l, s')) :
    s' = s ∧ 0 < l ∧ l ∈ order ∧
    s.m.isSet l = false ∧ s.m.isSet (negate l) = false :=
  selectLiteral_default_spec s order l s' hd hpos hsome hsel

/-- Witness for C9 (amended): on `[[6,4]]` with iteration order `[6,4]`,
selection returns 6 — an unassigned variable with positive polarity. -/
theorem c9_selects_unassigned_positive_witness :
    addFormula newSolver [[6, 4]] = addFormula newSolver [[6, 4]] ∧
    0 < (6 : Int) ∧ (6 : Int) ∈ [6, 4] ∧
    (addFormula newSolver [[6, 4]]).m.isSet 6 = false ∧
    (addFormula newSolver [[6, 4]]).m.isSet (negate 6) = false :=
  c9_selects_unassigned_positive (addFormula newSolver [[6, 4]]) [6, 4] 6
    (addFormula newSolver [[6, 4]]) (by decide) (by decide)
    ⟨6, by decide, by decide⟩ (by decide)

/-- **C10** (counterexample).  The override literal `-4` names variable 4,
which is already assigned on the trail, yet `selectLiteral` does not stop
fatally: it returns `-4`.  The panic guard compares the override literal
itself against the absolute values of trail literals, so a negative
override literal never triggers it. -/
theorem c10_negative_override_escapes_check :
    selectLiteral exTakenOverride [] =
      Except.ok (-4, { exTakenOverride with decideLiterals := [] }) ∧
    exTakenOverride.m.isSet 4 = true ∧
    exTakenOverride.decideLiterals = [-4] := by decide

/-- **C10** (amended).  With an override sequence supplied, literal
selection stops fatally exactly when the next override literal itself
equals the absolute value of some trail literal: a positive override
literal naming an assigned variable panics, while a negative one passes the
check (and is returned) even when its variable is assigned. -/
theorem c10_panic_iff_positive_taken (s : Solver) (order : List Int)
    (d : Int) (rest : List Int) (hd : s.decideLiterals = d :: rest) :
    (selectLiteral s order = Except.error "decideLiteral taken" ↔
      d ∈ takenVars s) ∧
    (d ∉ takenVars s →
      selectLiteral s order = Except.ok (d, { s with decideLiterals := rest })) := by
  simp only [selectLiteral, hd]
  by_cases h : d ∈ takenVars s
  · simp [h]
  · simp [h]

/-- Witness for C10 (amended): override literal 4 with variable 4 assigned
does stop fatally. -/
theorem c10_panic_iff_positive_taken_witness :
    selectLiteral { exTakenOverride with decideLiterals := [4] } [] =
      Except.error "decideLiteral taken" :=
  (c10_panic_iff_positive_taken { exTakenOverride with decideLiterals := [4] }
    [] 4 [] rfl).1.mpr (by decide)

/-- `findUnit` returning none means no clause of the formula is unit. -/
theorem findUnit_none_no_unit (m : Trail) :
    ∀ (f : Formula), findUnit m f = none →
      ∀ c ∈ f, ∀ l ∈ c, m.isUnit c l = false := by
  intro f
  induction f with
  | nil =>
      intro _ c hc
      exact absurd hc (List.not_mem_nil c)
  | cons c₀ rest ih =>
      intro h c hc l hl
      unfold findUnit at h
      rcases hfc : findUnitInClause m c₀ with _ | l₀
      · simp only [hfc] at h
        rcases List.mem_cons.mp hc with hc' | hc'
        · subst hc'
          have := List.find?_eq_none.mp hfc l hl
          simp only [Bool.not_eq_true] at this
          exact this
        · exact ih h c hc' l hl
      · simp only [hfc] at h
        exact Option.noConfusion h

/-- **C6**.  Whenever `unitPropagate` returns, the entry and exit states are
related by `UnitChain`: the function repeatedly asserted the forced literal
of the first currently-unit clause with that clause recorded as its reason,
and it stopped either at a fixpoint or immediately after an assertion that
falsified some clause, asserting nothing further.  Moreover when the exit
state does not falsify the formula, no clause of the formula is unit at
exit (the fixpoint case). -/
theorem c6_unit_propagation (fuel : Nat) (s s' : Solver)
    (hup : unitPropagate fuel s = some s') :
    UnitChain s s' ∧
    (isFormulaFalse s'.m s'.f = none →
      ∀ c ∈ s'.f, ∀ l ∈ c, s'.m.isUnit c l = false) := by
  induction fuel generalizing s with
  | zero => exact Option.noConfusion hup
  | succ n ih =>
      unfold unitPropagate at hup
      rcases hfu : findUnit s.m s.f with _ | ⟨c, l⟩
      · simp only [hfu, Option.some.injEq] at hup
        subst hup
        exact ⟨UnitChain.fixpoint s hfu, fun _ => findUnit_none_no_unit s.m s.f hfu⟩
      · simp only [hfu] at hup
        rcases hff : isFormulaFalse (propagateOne s c l).m (propagateOne s c l).f with _ | cc
        · simp only [hff] at hup
          obtain ⟨hchain, hfix⟩ := ih (propagateOne s c l) hup
          exact ⟨UnitChain.more s s' c l hfu hff hchain, hfix⟩
        · simp only [hff, Option.some.injEq] at hup
          subst hup
          refine ⟨UnitChain.halt s c l hfu (by rw [hff]; exact Option.noConfusion), ?_⟩
          intro hnone
          rw [hff] at hnone
          exact Option.noConfusion hnone

/-- Witness for C6: propagation on `[[4]]` runs one step to the fixpoint
state `exSat4`. -/
theorem c6_unit_propagation_witness :
    UnitChain (addFormula newSolver [[4]]) exSat4 ∧
    (isFormulaFalse exSat4.m exSat4.f = none →
      ∀ c ∈ exSat4.f, ∀ l ∈ c, exSat4.m.isUnit c l = false) :=
  c6_unit_propagation 2 (addFormula newSolver [[4]]) exSat4 (by decide)

/-! ### Trail structure lemmas -/

theorem decCount_append (a b : List TrailElem) :
    decCount (a ++ b) = decCount a + decCount b := by
  simp [decCount, List.filter_append]

theorem decCount_cons (e : TrailElem) (es : List TrailElem) :
    decCount (e :: es) = (if e.decision then 1 else 0) + decCount es := by
  by_cases h : e.decision
  · simp [decCount, List.filter_cons, h, Nat.add_comm]
  · simp [decCount, List.filter_cons, h]

theorem levelInElems_cons (e : TrailElem) (rest : List TrailElem) (x : Int) :
    levelInElems (e :: rest) x =
      if e.lit = x then decCount (e :: rest) else levelInElems rest x := rfl

theorem levelInElems_le_decCount (es : List TrailElem) (x : Int) :
    levelInElems es x ≤ decCount es := by
  induction es with
  | nil => simp [levelInElems]
  | cons e rest ih =>
      unfold levelInElems
      by_cases h : e.lit = x
      · rw [if_pos h]
      · rw [if_neg h]
        calc levelInElems rest x ≤ decCount rest := ih
          _ ≤ decCount (e :: rest) := by rw [decCount_cons]; omega

theorem levelInElems_append_right (pre suf : List TrailElem) (x : Int)
    (h : ∀ e ∈ pre, e.lit ≠ x) :
    levelInElems (pre ++ suf) x = levelInElems suf x := by
  induction pre with
  | nil => rfl
  | cons e pre' ih =>
      rw [List.cons_append, levelInElems_cons,
        if_neg (h e (List.mem_cons_self e pre'))]
      exact ih (fun e' he' => h e' (List.mem_cons_of_mem e he'))

theorem levelInElems_cons_self (e : TrailElem) (rest : List TrailElem) (x : Int)
    (h : e.lit = x) : levelInElems (e :: rest) x = decCount (e :: rest) := by
  unfold levelInElems
  rw [if_pos h]

theorem level_pos_mem (es : List TrailElem) (x : Int)
    (h : 0 < levelInElems es x) : ∃ e ∈ es, e.lit = x := by
  induction es with
  | nil => simp [levelInElems] at h
  | cons e rest ih =>
      unfold levelInElems at h
      by_cases he : e.lit = x
      · exact ⟨e, List.mem_cons_self e rest, he⟩
      · rw [if_neg he] at h
        obtain ⟨e', he', hx⟩ := ih h
        exact ⟨e', List.mem_cons_of_mem e he', hx⟩

theorem isSet_iff_exists_mem (m : Trail) (x : Int) :
    m.isSet x = true ↔ ∃ e ∈ m.elems, e.lit = x := by
  simp [Trail.isSet, List.any_eq_true, beq_iff_eq]

theorem nodup_mid (f : TrailElem → Nat) (pre suf : List TrailElem) (y : TrailElem)
    (h : (List.map f (pre ++ y :: suf)).Nodup) :
    (∀ e ∈ pre, f e ≠ f y) ∧ (∀ e ∈ suf, f e ≠ f y) := by
  rw [List.map_append, List.map_cons] at h
  rw [List.nodup_append] at h
  obtain ⟨h₁, h₂, h₃⟩ := h
  constructor
  · intro e he heq
    exact h₃ (List.mem_map_of_mem f he) (by rw [heq]; exact List.mem_cons_self _ _)
  · intro e he heq
    rw [List.nodup_cons] at h₂
    exact h₂.1 (heq ▸ List.mem_map_of_mem f he)

theorem trailWF_level_decomp (m : Trail) (pre suf : List TrailElem) (d : Bool) (x : Int)
    (hwf : TrailWF m) (hdec : m.elems = pre ++ ⟨x, d⟩ :: suf) :
    m.level x = decCount (⟨x, d⟩ :: suf) := by
  have hpre : ∀ e ∈ pre, e.lit ≠ x := by
    intro e he heq
    have := (nodup_mid (fun e => e.lit.natAbs) pre suf ⟨x, d⟩ (by rw [← hdec]; exact hwf.1)).1 e he
    rw [heq] at this
    exact this rfl
  show levelInElems m.elems x = _
  rw [hdec, levelInElems_append_right pre _ x hpre, levelInElems_cons_self _ _ _ rfl]

/-! ### Trim lemmas -/

theorem trim_cons (e : TrailElem) (es : List TrailElem) (lv : Nat) :
    trimElemsToLevel (e :: es) lv =
      if decCount (e :: es) ≤ lv then e :: es else trimElemsToLevel es lv := rfl

theorem trim_eq_of_le (es : List TrailElem) (lv : Nat) (h : decCount es ≤ lv) :
    trimElemsToLevel es lv = es := by
  cases es with
  | nil => rfl
  | cons e rest =>
      unfold trimElemsToLevel
      rw [if_pos h]

theorem trim_suffix (es : List TrailElem) (lv : Nat) :
    ∃ pre, es = pre ++ trimElemsToLevel es lv := by
  induction es with
  | nil => exact ⟨[], rfl⟩
  | cons e rest ih =>
      unfold trimElemsToLevel
      by_cases h : decCount (e :: rest) ≤ lv
      · rw [if_pos h]; exact ⟨[], rfl⟩
      · rw [if_neg h]
        obtain ⟨pre, hpre⟩ := ih
        exact ⟨e :: pre, by rw [List.cons_append, ← hpre]⟩

theorem decCount_trim_le (es : List TrailElem) (lv : Nat) :
    decCount (trimElemsToLevel es lv) ≤ lv := by
  induction es with
  | nil => simp [trimElemsToLevel, decCount]
  | cons e rest ih =>
      unfold trimElemsToLevel
      by_cases h : decCount (e :: rest) ≤ lv
      · rw [if_pos h]; exact h
      · rw [if_neg h]; exact ih

theorem decCount_trim_eq (es : List TrailElem) (lv : Nat) (h : lv ≤ decCount es) :
    decCount (trimElemsToLevel es lv) = lv := by
  induction es with
  | nil => simp [decCount, List.filter_nil] at h; simp [trimElemsToLevel, decCount, h]
  | cons e rest ih =>
      unfold trimElemsToLevel
      by_cases h2 : decCount (e :: rest) ≤ lv
      · rw [if_pos h2]; omega
      · rw [if_neg h2]
        refine ih ?_
        rw [decCount_cons] at h2
        by_cases hd : e.decision <;> simp [hd] at h2 <;> omega

theorem trim_preserves (suf : List TrailElem) (lv : Nat) (h : decCount suf ≤ lv) :
    ∀ pre, ∃ q, trimElemsToLevel (pre ++ suf) lv = q ++ suf := by
  intro pre
  induction pre with
  | nil => exact ⟨[], by rw [List.nil_append, trim_eq_of_le suf lv h]⟩
  | cons e pre' ih =>
      rw [List.cons_append]
      unfold trimElemsToLevel
      by_cases h2 : decCount (e :: (pre' ++ suf)) ≤ lv
      · rw [if_pos h2]
        exact ⟨e :: pre', by rw [List.cons_append]⟩
      · rw [if_neg h2]
        exact ih

theorem trim_cons_of_gt (e : TrailElem) (es : List TrailElem) (lv : Nat)
    (h : lv < decCount (e :: es)) :
    trimElemsToLevel (e :: es) lv = trimElemsToLevel es lv := by
  rw [trim_cons, if_neg (by omega)]

theorem trim_trim (es : List TrailElem) (j lv : Nat) (h : lv ≤ j) :
    trimElemsToLevel (trimElemsToLevel es j) lv = trimElemsToLevel es lv := by
  induction es with
  | nil => rfl
  | cons e rest ih =>
      by_cases h2 : decCount (e :: rest) ≤ j
      · rw [trim_eq_of_le _ _ h2]
      · rw [trim_cons_of_gt _ _ _ (by omega), trim_cons_of_gt _ _ _ (by omega)]
        exact ih

theorem not_isSet_trim_of_level_gt (m : Trail) (x : Int) (lv : Nat)
    (hwf : TrailWF m) (hlev : lv < m.level x) :
    (m.trimToLevel lv).isSet x = false := by
  by_contra hset
  simp only [Bool.not_eq_false] at hset
  obtain ⟨e, he, hx⟩ := (isSet_iff_exists_mem _ x).mp hset
  obtain ⟨q, suf', hq⟩ := List.append_of_mem he
  obtain ⟨pre₀, hpre₀⟩ := trim_suffix m.elems lv
  have he' : e = ⟨x, e.decision⟩ := by rw [← hx]
  have hdec : m.elems = (pre₀ ++ q) ++ ⟨x, e.decision⟩ :: suf' := by
    rw [hpre₀]
    show pre₀ ++ (m.trimToLevel lv).elems = _
    rw [hq, he', List.append_assoc]
  have hlevx := trailWF_level_decomp m (pre₀ ++ q) suf' e.decision x hwf hdec
  have h1 : decCount (⟨x, e.decision⟩ :: suf') ≤ decCount (m.trimToLevel lv).elems := by
    have hq' : (m.trimToLevel lv).elems = q ++ ⟨x, e.decision⟩ :: suf' := by
      rw [hq, he']
    rw [hq', decCount_append]
    omega
  have h2 : decCount (m.trimToLevel lv).elems ≤ lv := decCount_trim_le m.elems lv
  omega

theorem isSet_trim_of_level_le (m : Trail) (x : Int) (lv : Nat)
    (hwf : TrailWF m) (hset : m.isSet x = true) (hlev : m.level x ≤ lv) :
    (m.trimToLevel lv).isSet x = true := by
  obtain ⟨e, he, hx⟩ := (isSet_iff_exists_mem m x).mp hset
  obtain ⟨pre, suf, hdec⟩ := List.append_of_mem he
  have he' : e = ⟨x, e.decision⟩ := by rw [← hx]
  rw [he'] at hdec
  have hlevx := trailWF_level_decomp m pre suf e.decision x hwf hdec
  obtain ⟨q, hq⟩ := trim_preserves (⟨x, e.decision⟩ :: suf) lv (by omega) pre
  rw [isSet_iff_exists_mem]
  refine ⟨⟨x, e.decision⟩, ?_, rfl⟩
  show _ ∈ (m.trimToLevel lv).elems
  show _ ∈ trimElemsToLevel m.elems lv
  rw [hdec, hq]
  exact List.mem_append_right q (List.mem_cons_self _ _)

theorem isSet_of_isSet_trim (m : Trail) (x : Int) (lv : Nat)
    (h : (m.trimToLevel lv).isSet x = true) : m.isSet x = true := by
  obtain ⟨e, he, hx⟩ := (isSet_iff_exists_mem _ x).mp h
  obtain ⟨pre₀, hpre₀⟩ := trim_suffix m.elems lv
  rw [isSet_iff_exists_mem]
  refine ⟨e, ?_, hx⟩
  rw [hpre₀]
  exact List.mem_append_right pre₀ he

/-! ### Conflict working-set lemmas -/

theorem negate_negate (x : Int) : negate (negate x) = x := by
  simp [negate]

theorem countAtCurrent_cons_pos (m : Trail) (cH : List Int) (l : Int)
    (h : m.level (negate l) = m.currentLevel) :
    countAtCurrent m (l :: cH) = countAtCurrent m cH + 1 := by
  simp [countAtCurrent, List.filter_cons, h]

theorem countAtCurrent_cons_neg (m : Trail) (cH : List Int) (l : Int)
    (h : m.level (negate l) ≠ m.currentLevel) :
    countAtCurrent m (l :: cH) = countAtCurrent m cH := by
  simp [countAtCurrent, List.filter_cons, h]

theorem countAtCurrent_erase_pos (m : Trail) (cH : List Int) (l : Int)
    (hl : l ∈ cH) (h : m.level (negate l) = m.currentLevel) :
    countAtCurrent m (cH.erase l) + 1 = countAtCurrent m cH := by
  obtain ⟨l₁, l₂, _, hdecomp, herase⟩ := List.exists_erase_eq hl
  rw [herase, hdecomp]
  simp only [countAtCurrent, List.filter_append, List.filter_cons, h, decide_True,
    if_true, List.length_append, List.length_cons]
  omega

theorem countAtCurrent_pos_exists (m : Trail) (cH : List Int)
    (h : 1 ≤ countAtCurrent m cH) :
    ∃ l ∈ cH, m.level (negate l) = m.currentLevel := by
  unfold countAtCurrent at h
  rcases hf : cH.filter (fun l => m.level (negate l) = m.currentLevel) with _ | ⟨a, as⟩
  · rw [hf] at h; simp at h
  · have ha : a ∈ cH.filter (fun l => m.level (negate l) = m.currentLevel) := by
      rw [hf]; exact List.mem_cons_self a as
    rw [List.mem_filter] at ha
    exact ⟨a, ha.1, by simpa using ha.2⟩

theorem addConflictLiteral_inv (s : Solver) (l : Int) (hinv : AnalysisInv s) :
    AnalysisInv (addConflictLiteral s l) := by
  obtain ⟨hHnd, hPnd, hHpos, hPsub, hPcomp, hN⟩ := hinv
  unfold addConflictLiteral
  by_cases h1 : l ∈ s.cH
  · rw [if_pos h1]; exact ⟨hHnd, hPnd, hHpos, hPsub, hPcomp, hN⟩
  · rw [if_neg h1]
    by_cases h2 : s.m.level (negate l) > 0
    · rw [if_pos h2]
      by_cases h3 : s.m.level (negate l) = s.m.currentLevel
      · rw [if_pos h3]
        refine ⟨List.nodup_cons.mpr ⟨h1, hHnd⟩, hPnd, ?_, ?_, ?_, ?_⟩
        · intro x hx
          rcases List.mem_cons.mp hx with h | h
          · subst h; exact h2
          · exact hHpos x h
        · intro x hx
          exact ⟨List.mem_cons_of_mem l (hPsub x hx).1, (hPsub x hx).2⟩
        · intro x hx hxl
          rcases List.mem_cons.mp hx with h | h
          · subst h; exact absurd h3 hxl
          · exact hPcomp x h hxl
        · show s.cN + 1 = (countAtCurrent s.m (l :: s.cH) : Int)
          rw [countAtCurrent_cons_pos s.m s.cH l h3]
          push_cast
          omega
      · rw [if_neg h3]
        refine ⟨List.nodup_cons.mpr ⟨h1, hHnd⟩, ?_, ?_, ?_, ?_, ?_⟩
        · refine List.nodup_cons.mpr ⟨?_, hPnd⟩
          intro hlP
          exact h1 (hPsub l hlP).1
        · intro x hx
          rcases List.mem_cons.mp hx with h | h
          · subst h; exact h2
          · exact hHpos x h
        · intro x hx
          rcases List.mem_cons.mp hx with h | h
          · subst h; exact ⟨List.mem_cons_self x s.cH, h3⟩
          · exact ⟨List.mem_cons_of_mem l (hPsub x h).1, (hPsub x h).2⟩
        · intro x hx hxl
          rcases List.mem_cons.mp hx with h | h
          · subst h; exact List.mem_cons_self x s.cP
          · exact List.mem_cons_of_mem l (hPcomp x h hxl)
        · show s.cN = (countAtCurrent s.m (l :: s.cH) : Int)
          rw [countAtCurrent_cons_neg s.m s.cH l h3]
          exact hN
    · rw [if_neg h2]; exact ⟨hHnd, hPnd, hHpos, hPsub, hPcomp, hN⟩

theorem addConflictLiteral_cN_mono (s : Solver) (l : Int) :
    s.cN ≤ (addConflictLiteral s l).cN := by
  unfold addConflictLiteral
  split
  · exact le_refl _
  · split
    · split
      · show s.cN ≤ s.cN + 1; omega
      · exact le_refl _
    · exact le_refl _

theorem addConflictLiteral_cH_mono (s : Solver) (l : Int) :
    s.cH ⊆ (addConflictLiteral s l).cH := by
  unfold addConflictLiteral
  split
  · exact fun x hx => hx
  · split
    · split
      · exact fun x hx => List.mem_cons_of_mem l hx
      · exact fun x hx => List.mem_cons_of_mem l hx
    · exact fun x hx => hx

theorem addConflictLiteral_self_mem (s : Solver) (l : Int)
    (h : 0 < s.m.level (negate l)) : l ∈ (addConflictLiteral s l).cH := by
  unfold addConflictLiteral
  by_cases h1 : l ∈ s.cH
  · rw [if_pos h1]; exact h1
  · rw [if_neg h1, if_pos h]
    split
    · exact List.mem_cons_self l s.cH
    · exact List.mem_cons_self l s.cH

theorem removeConflictLiteral_inv (s : Solver) (x : Int) (hinv : AnalysisInv s)
    (hx : x ∈ s.cH) (hlev : s.m.level (negate x) = s.m.currentLevel) :
    AnalysisInv (removeConflictLiteral s x) ∧
    (removeConflictLiteral s x).cN = s.cN - 1 ∧
    (removeConflictLiteral s x).cH = s.cH.erase x ∧
    (removeConflictLiteral s x).cP = s.cP := by
  obtain ⟨hHnd, hPnd, hHpos, hPsub, hPcomp, hN⟩ := hinv
  unfold removeConflictLiteral
  rw [if_pos hlev]
  refine ⟨⟨hHnd.erase x, hPnd, ?_, ?_, ?_, ?_⟩, rfl, rfl, rfl⟩
  · intro l hl
    exact hHpos l (List.mem_of_mem_erase hl)
  · intro l hl
    obtain ⟨hlH, hll⟩ := hPsub l hl
    refine ⟨?_, hll⟩
    have hne : l ≠ x := by
      intro heq
      rw [heq] at hll
      exact hll hlev
    exact (hHnd.mem_erase_iff.mpr ⟨hne, hlH⟩)
  · intro l hl hll
    exact hPcomp l (List.mem_of_mem_erase hl) hll
  · show s.cN - 1 = (countAtCurrent s.m (s.cH.erase x) : Int)
    have := countAtCurrent_erase_pos s.m s.cH x hx hlev
    omega

theorem lastAsserted_cons (e : TrailElem) (rest : List TrailElem) (cH : List Int) :
    lastAsserted (e :: rest) cH =
      if negate e.lit ∈ cH then some e.lit else lastAsserted rest cH := rfl

theorem lastAsserted_decomp (es : List TrailElem) (cH : List Int) (x : Int)
    (h : lastAsserted es cH = some x) :
    negate x ∈ cH ∧
    ∃ pre d suf, es = pre ++ ⟨x, d⟩ :: suf ∧ ∀ e ∈ pre, negate e.lit ∉ cH := by
  induction es with
  | nil => exact Option.noConfusion h
  | cons e rest ih =>
      rw [lastAsserted_cons] at h
      by_cases hc : negate e.lit ∈ cH
      · rw [if_pos hc] at h
        simp only [Option.some.injEq] at h
        subst h
        refine ⟨hc, [], e.decision, rest, ?_, ?_⟩
        · rfl
        · intro e' he'
          exact absurd he' (List.not_mem_nil e')
      · rw [if_neg hc] at h
        obtain ⟨hneg, pre, d, suf, hdec, hpre⟩ := ih h
        refine ⟨hneg, e :: pre, d, suf, by rw [hdec, List.cons_append], ?_⟩
        intro e' he'
        rcases List.mem_cons.mp he' with h' | h'
        · subst h'; exact hc
        · exact hpre e' h'

theorem lastAsserted_of_exists (es : List TrailElem) (cH : List Int)
    (h : ∃ e ∈ es, negate e.lit ∈ cH) :
    ∃ x, lastAsserted es cH = some x := by
  induction es with
  | nil =>
      obtain ⟨e, he, _⟩ := h
      exact absurd he (List.not_mem_nil e)
  | cons e rest ih =>
      rw [lastAsserted_cons]
      by_cases hc : negate e.lit ∈ cH
      · rw [if_pos hc]; exact ⟨e.lit, rfl⟩
      · rw [if_neg hc]
        obtain ⟨e', he', hc'⟩ := h
        rcases List.mem_cons.mp he' with h' | h'
        · subst h'; exact absurd hc' hc
        · exact ih ⟨e', h', hc'⟩

theorem computeCL_eq_lastAsserted (es : List TrailElem) (cH : List Int) (d x : Int)
    (h : lastAsserted es cH = some x) : computeCL es cH d = x := by
  induction es with
  | nil => exact Option.noConfusion h
  | cons e rest ih =>
      rw [lastAsserted_cons] at h
      cases rest with
      | nil =>
          show e.lit = x
          by_cases hc : negate e.lit ∈ cH
          · rw [if_pos hc] at h
            exact (Option.some.injEq _ _ ▸ h)
          · rw [if_neg hc] at h
            exact Option.noConfusion h
      | cons e' rest' =>
          show (if negate e.lit ∈ cH then e.lit else computeCL (e' :: rest') cH d) = x
          by_cases hc : negate e.lit ∈ cH
          · rw [if_pos hc] at h
            rw [if_pos hc]
            simp only [Option.some.injEq] at h
            exact h
          · rw [if_neg hc] at h
            rw [if_neg hc]
            exact ih h

/-! ### Conflict analysis: cL tracking and invariant preservation -/

theorem level_pos_mem_mk (es : List TrailElem) (x : Int)
    (h : 0 < levelInElems es x) : ∃ d, TrailElem.mk x d ∈ es := by
  obtain ⟨e, he, hx⟩ := level_pos_mem es x h
  refine ⟨e.decision, ?_⟩
  have he' : e = ⟨x, e.decision⟩ := by rw [← hx]
  rw [← he']
  exact he

/-- The most recently asserted trail literal whose negation is in H is
assigned at the current decision level, as long as some literal of H is. -/
theorem lastLit_level_current (m : Trail) (cH : List Int) (x : Int)
    (hwf : TrailWF m) (hpos : ∀ l ∈ cH, 0 < m.level (negate l))
    (hL : lastAsserted m.elems cH = some x)
    (hcnt : 1 ≤ countAtCurrent m cH) :
    m.level x = m.currentLevel := by
  obtain ⟨l', hl'H, hl'lev⟩ := countAtCurrent_pos_exists m cH hcnt
  obtain ⟨hnegx, pre, d, suf, hdec, hpre⟩ := lastAsserted_decomp m.elems cH x hL
  obtain ⟨d', he'⟩ := level_pos_mem_mk m.elems (negate l') (hpos l' hl'H)
  have he'mem : (⟨negate l', d'⟩ : TrailElem) ∈ (⟨x, d⟩ : TrailElem) :: suf := by
    rw [hdec] at he'
    rcases List.mem_append.mp he' with h | h
    · exfalso
      apply hpre _ h
      show negate (negate l') ∈ cH
      rw [negate_negate]
      exact hl'H
    · exact h
  have hxlev : m.level x = decCount ((⟨x, d⟩ : TrailElem) :: suf) :=
    trailWF_level_decomp m pre suf d x hwf hdec
  have hxle : m.level x ≤ m.currentLevel := levelInElems_le_decCount m.elems x
  rcases List.mem_cons.mp he'mem with h | h
  · have hx' : negate l' = x := congrArg TrailElem.lit h
    rw [← hx']
    exact hl'lev
  · obtain ⟨suf₁, suf₂, hsuf⟩ := List.append_of_mem h
    have hdec2 : m.elems = (pre ++ (⟨x, d⟩ : TrailElem) :: suf₁) ++
        (⟨negate l', d'⟩ : TrailElem) :: suf₂ := by
      rw [hdec, hsuf]
      simp [List.append_assoc]
    have hlev2 : m.level (negate l') = decCount ((⟨negate l', d'⟩ : TrailElem) :: suf₂) :=
      trailWF_level_decomp m _ suf₂ d' (negate l') hwf hdec2
    have hmono : decCount ((⟨negate l', d'⟩ : TrailElem) :: suf₂) ≤
        decCount ((⟨x, d⟩ : TrailElem) :: suf) := by
      simp only [hsuf, decCount_cons, decCount_append]
      omega
    rw [hl'lev] at hlev2
    omega

theorem foldl_explainAdd_inv (lit : Int) :
    ∀ (ls : List Int) (t : Solver), AnalysisInv t → 1 ≤ t.cN →
      AnalysisInv (ls.foldl (fun t l => if l = lit then t else addConflictLiteral t l) t) ∧
      1 ≤ (ls.foldl (fun t l => if l = lit then t else addConflictLiteral t l) t).cN := by
  intro ls
  induction ls with
  | nil => intro t h1 h2; exact ⟨h1, h2⟩
  | cons a as ih =>
      intro t h1 h2
      rw [List.foldl_cons]
      by_cases ha : a = lit
      · rw [if_pos ha]
        exact ih t h1 h2
      · rw [if_neg ha]
        exact ih _ (addConflictLiteral_inv t a h1)
          (le_trans h2 (addConflictLiteral_cN_mono t a))

/-- Relocating `cL` via `setCL` succeeds when some literal of H is at the
current level: the stored literal is the most recently asserted one whose
negation is in H. -/
theorem setCL_isLastLit (t : Solver) (hinv : AnalysisInv t)
    (hcnt : 1 ≤ countAtCurrent t.m t.cH) :
    IsLastLit (setCL t).m (setCL t).cH (setCL t).cL := by
  obtain ⟨l', hl', hlev'⟩ := countAtCurrent_pos_exists t.m t.cH hcnt
  obtain ⟨d', he'⟩ := level_pos_mem_mk t.m.elems (negate l') (hinv.2.2.1 l' hl')
  have hex : ∃ e ∈ t.m.elems, negate e.lit ∈ t.cH :=
    ⟨⟨negate l', d'⟩, he', by show negate (negate l') ∈ t.cH; rw [negate_negate]; exact hl'⟩
  obtain ⟨xcl, hxcl⟩ := lastAsserted_of_exists t.m.elems t.cH hex
  show lastAsserted t.m.elems t.cH = some (computeCL t.m.elems t.cH t.cL)
  rw [computeCL_eq_lastAsserted t.m.elems t.cH t.cL xcl hxcl]
  exact hxcl

/-- One resolution step of the first-UIP loop keeps the working-set
invariant, keeps N at least 1, and relocates L correctly. -/
theorem applyExplain_step (s : Solver) (hwf : TrailWF s.m) (hinv : AnalysisInv s)
    (hL : IsLastLit s.m s.cH s.cL) (hN2 : 2 ≤ s.cN) :
    AnalysisInv (applyExplain s s.cL) ∧
    IsLastLit (applyExplain s s.cL).m (applyExplain s s.cL).cH (applyExplain s s.cL).cL ∧
    1 ≤ (applyExplain s s.cL).cN := by
  have hNc := hinv.2.2.2.2.2
  have hcnt : 1 ≤ countAtCurrent s.m s.cH := by omega
  have hlevL : s.m.level s.cL = s.m.currentLevel :=
    lastLit_level_current s.m s.cH s.cL hwf hinv.2.2.1 hL hcnt
  have hmemL : negate s.cL ∈ s.cH := (lastAsserted_decomp _ _ _ hL).1
  have hrem := removeConflictLiteral_inv s (negate s.cL) hinv hmemL
    (by rw [negate_negate]; exact hlevL)
  have ht₁N : 1 ≤ (removeConflictLiteral s (negate s.cL)).cN := by
    rw [hrem.2.1]; omega
  have hres : AnalysisInv (resolveReason (removeConflictLiteral s (negate s.cL)) s.cL) ∧
      1 ≤ (resolveReason (removeConflictLiteral s (negate s.cL)) s.cL).cN := by
    unfold resolveReason
    exact foldl_explainAdd_inv s.cL _ _ hrem.1 ht₁N
  have happly : applyExplain s s.cL =
      setCL (resolveReason (removeConflictLiteral s (negate s.cL)) s.cL) := rfl
  have hcnt₂ : 1 ≤ countAtCurrent
      (resolveReason (removeConflictLiteral s (negate s.cL)) s.cL).m
      (resolveReason (removeConflictLiteral s (negate s.cL)) s.cL).cH := by
    have := hres.1.2.2.2.2.2
    have := hres.2
    omega
  refine ⟨?_, ?_, ?_⟩
  · rw [happly]
    exact hres.1
  · rw [happly]
    exact setCL_isLastLit _ hres.1 hcnt₂
  · rw [happly]
    exact hres.2

/-- Through the whole first-UIP loop the working-set invariant holds, and at
exit N = 1 with L still the most recently asserted literal negated in H. -/
theorem applyExplainUIP_inv :
    ∀ (fuel : Nat) (s s' : Solver), TrailWF s.m → AnalysisInv s →
      IsLastLit s.m s.cH s.cL → 1 ≤ s.cN →
      applyExplainUIP fuel s = some s' →
      AnalysisInv s' ∧ IsLastLit s'.m s'.cH s'.cL ∧ s'.cN = 1 := by
  intro fuel
  induction fuel with
  | zero => intro s s' _ _ _ _ h; exact Option.noConfusion h
  | succ n ih =>
      intro s s' hwf hinv hL hN h
      unfold applyExplainUIP at h
      by_cases hN1 : s.cN ≠ 1
      · rw [if_pos hN1] at h
        have hN2 : 2 ≤ s.cN := by omega
        obtain ⟨hinv', hL', hN'⟩ := applyExplain_step s hwf hinv hL hN2
        have hm' : (applyExplain s s.cL).m = s.m := (applyExplain_coreEq s s.cL).2.2.1
        exact ih _ s' (by rw [hm']; exact hwf) hinv' hL' hN' h
      · rw [if_neg hN1] at h
        simp only [Option.some.injEq] at h
        rw [← h]
        simp only [ne_eq, not_not] at hN1
        exact ⟨hinv, hL, hN1⟩

theorem foldl_add_cH_mono (ls : List Int) :
    ∀ t : Solver, t.cH ⊆ (ls.foldl addConflictLiteral t).cH := by
  induction ls with
  | nil => intro t; exact fun x hx => hx
  | cons a as ih =>
      intro t
      rw [List.foldl_cons]
      exact fun x hx => ih (addConflictLiteral t a) (addConflictLiteral_cH_mono t a hx)

theorem foldl_add_mem (ls : List Int) :
    ∀ (t : Solver) (l : Int), l ∈ ls → 0 < t.m.level (negate l) →
      l ∈ (ls.foldl addConflictLiteral t).cH := by
  induction ls with
  | nil =>
      intro t l hl
      exact absurd hl (List.not_mem_nil l)
  | cons a as ih =>
      intro t l hl hp
      rw [List.foldl_cons]
      rcases List.mem_cons.mp hl with h | h
      · subst h
        exact foldl_add_cH_mono as _ (addConflictLiteral_self_mem t l hp)
      · refine ih _ l h ?_
        have : (addConflictLiteral t a).m = t.m := (addConflictLiteral_coreEq t a).2.2.1
        rw [this]
        exact hp

theorem countAtCurrent_ge_one_of_mem (m : Trail) (cH : List Int) (l : Int)
    (hl : l ∈ cH) (h : m.level (negate l) = m.currentLevel) :
    1 ≤ countAtCurrent m cH := by
  unfold countAtCurrent
  have : l ∈ cH.filter (fun l => m.level (negate l) = m.currentLevel) :=
    List.mem_filter.mpr ⟨hl, by simpa using h⟩
  exact List.length_pos.mpr (List.ne_nil_of_mem this)

/-- `applyConflict` establishes the working-set invariant from scratch, and
when the conflict clause has a literal falsified at the (positive) current
level, N comes out at least 1 with L correctly located. -/
theorem applyConflict_analysis (s : Solver) (cc : Clause)
    (hex : ∃ l ∈ cc, 0 < s.m.level (negate l) ∧ s.m.level (negate l) = s.m.currentLevel) :
    AnalysisInv (applyConflict s cc) ∧
    IsLastLit (applyConflict s cc).m (applyConflict s cc).cH (applyConflict s cc).cL ∧
    1 ≤ (applyConflict s cc).cN := by
  obtain ⟨l, hl, hp, hcur⟩ := hex
  have hinv₀ : AnalysisInv { s with cH := [], cP := [], cN := 0 } := by
    refine ⟨List.nodup_nil, List.nodup_nil, ?_, ?_, ?_, ?_⟩
    · intro x hx; exact absurd hx (List.not_mem_nil x)
    · intro x hx; exact absurd hx (List.not_mem_nil x)
    · intro x hx; exact absurd hx (List.not_mem_nil x)
    · rfl
  have hinv₁ : AnalysisInv (cc.foldl addConflictLiteral { s with cH := [], cP := [], cN := 0 }) := by
    clear hl hp hcur l
    generalize { s with cH := [], cP := [], cN := 0 } = t at hinv₀ ⊢
    induction cc generalizing t with
    | nil => exact hinv₀
    | cons a as ih =>
        rw [List.foldl_cons]
        exact ih _ (addConflictLiteral_inv t a hinv₀)
  have hmem : l ∈ (cc.foldl addConflictLiteral { s with cH := [], cP := [], cN := 0 }).cH :=
    foldl_add_mem cc _ l hl hp
  have hm₁ : (cc.foldl addConflictLiteral { s with cH := [], cP := [], cN := 0 }).m = s.m :=
    (foldl_coreEq addConflictLiteral addConflictLiteral_coreEq cc _).2.2.1
  have hcnt₁ : 1 ≤ countAtCurrent
      (cc.foldl addConflictLiteral { s with cH := [], cP := [], cN := 0 }).m
      (cc.foldl addConflictLiteral { s with cH := [], cP := [], cN := 0 }).cH := by
    refine countAtCurrent_ge_one_of_mem _ _ l hmem ?_
    rw [hm₁]
    exact hcur
  have happly : applyConflict s cc =
      setCL (cc.foldl addConflictLiteral { s with cH := [], cP := [], cN := 0 }) := rfl
  refine ⟨?_, ?_, ?_⟩
  · rw [happly]; exact hinv₁
  · rw [happly]; exact setCL_isLastLit _ hinv₁ hcnt₁
  · rw [happly]
    show 1 ≤ (cc.foldl addConflictLiteral { s with cH := [], cP := [], cN := 0 }).cN
    have := hinv₁.2.2.2.2.2
    omega

/-- **C4**.  When the first-UIP loop terminates (N = 1), the learned clause
is exactly P together with ¬L, where L is the most recently asserted trail
literal whose negation is in H, and exactly one literal of H is assigned at
the current level; and throughout the analysis a literal whose negation is
assigned at decision level 0 (or unassigned) is never added to H, P or N —
`addConflictLiteral` leaves the state unchanged for it. -/
theorem c4_learned_clause (fuel : Nat) (s s' : Solver)
    (hwf : TrailWF s.m) (hinv : AnalysisInv s)
    (hL : IsLastLit s.m s.cH s.cL) (hN : 1 ≤ s.cN)
    (hUIP : applyExplainUIP fuel s = some s') :
    (∀ x, x ∈ s'.c ↔ (x ∈ s'.cP ∨ x = negate s'.cL)) ∧
    IsLastLit s'.m s'.cH s'.cL ∧
    countAtCurrent s'.m s'.cH = 1 ∧
    (∀ (t : Solver) (l : Int), t.m.level (negate l) = 0 → addConflictLiteral t l = t) := by
  obtain ⟨hinv', hL', hN'⟩ := applyExplainUIP_inv fuel s s' hwf hinv hL hN hUIP
  have hshape := (applyExplainUIP_c_shape fuel s s' hUIP).1
  refine ⟨?_, hL', ?_, ?_⟩
  · intro x
    rw [hshape]
    simp [List.mem_append]
  · have := hinv'.2.2.2.2.2
    omega
  · intro t l hlev
    unfold addConflictLiteral
    by_cases h1 : l ∈ t.cH
    · rw [if_pos h1]
    · rw [if_neg h1, hlev]
      rw [if_neg (by omega)]

/-- Witness for C4: the conflict on `[-1,-2,-3]` from `exPreConflict` is
analyzed to the exit state `exAnalysisExit` with learned clause
`[-1,-2] = P ∪ \x7b¬L\x7d`. -/
theorem c4_learned_clause_witness :
    (∀ x, x ∈ exAnalysisExit.c ↔ (x ∈ exAnalysisExit.cP ∨ x = negate exAnalysisExit.cL)) ∧
    IsLastLit exAnalysisExit.m exAnalysisExit.cH exAnalysisExit.cL ∧
    countAtCurrent exAnalysisExit.m exAnalysisExit.cH = 1 ∧
    (∀ (t : Solver) (l : Int), t.m.level (negate l) = 0 → addConflictLiteral t l = t) :=
  c4_learned_clause 4 (applyConflict exPreConflict [-1, -2, -3]) exAnalysisExit
    (by decide) (by decide) (by decide) (by decide) (by decide)

/-! ### Backjump lemmas (C5) -/

theorem foldl_max_ge_acc (g : Int → Nat) :
    ∀ (ls : List Int) (acc : Nat), acc ≤ ls.foldl (fun a l => max a (g l)) acc := by
  intro ls
  induction ls with
  | nil => intro acc; exact le_refl acc
  | cons a as ih =>
      intro acc
      rw [List.foldl_cons]
      exact le_trans (le_max_left acc (g a)) (ih (max acc (g a)))

theorem foldl_max_ge_mem (g : Int → Nat) :
    ∀ (ls : List Int) (acc : Nat) (x : Int), x ∈ ls →
      g x ≤ ls.foldl (fun a l => max a (g l)) acc := by
  intro ls
  induction ls with
  | nil =>
      intro acc x hx
      exact absurd hx (List.not_mem_nil x)
  | cons a as ih =>
      intro acc x hx
      rw [List.foldl_cons]
      rcases List.mem_cons.mp hx with h | h
      · subst h
        exact le_trans (le_max_right acc (g x)) (foldl_max_ge_acc g as (max acc (g x)))
      · exact ih (max acc (g a)) x h

theorem foldl_max_cases (g : Int → Nat) :
    ∀ (ls : List Int) (acc : Nat),
      ls.foldl (fun a l => max a (g l)) acc = acc ∨
      ∃ x ∈ ls, ls.foldl (fun a l => max a (g l)) acc = g x := by
  intro ls
  induction ls with
  | nil => intro acc; exact Or.inl rfl
  | cons a as ih =>
      intro acc
      rw [List.foldl_cons]
      rcases ih (max acc (g a)) with h | ⟨x, hx, h⟩
      · rcases max_choice acc (g a) with hm | hm
        · rw [hm] at h ⊢
          exact Or.inl h
        · rw [hm] at h ⊢
          exact Or.inr ⟨a, List.mem_cons_self a as, h⟩
      · exact Or.inr ⟨x, List.mem_cons_of_mem a hx, h⟩

theorem foldl_max_le_bound (g : Int → Nat) :
    ∀ (ls : List Int) (acc B : Nat), acc ≤ B → (∀ x ∈ ls, g x ≤ B) →
      ls.foldl (fun a l => max a (g l)) acc ≤ B := by
  intro ls
  induction ls with
  | nil => intro acc B h _; exact h
  | cons a as ih =>
      intro acc B h hall
      rw [List.foldl_cons]
      refine ih _ B ?_ (fun x hx => hall x (List.mem_cons_of_mem a hx))
      exact max_le h (hall a (List.mem_cons_self a as))

/-- The full specification of `applyBackjump` on a post-analysis state:
target level, trail truncation, reason recording, and unitness of the
learned clause on the truncated trail. -/
theorem backjump_spec (s : Solver)
    (hwf : TrailWF s.m) (hinv : AnalysisInv s) (hL : IsLastLit s.m s.cH s.cL)
    (hN : s.cN = 1) (hc : s.c = s.cP ++ [negate s.cL]) :
    (∀ l ∈ s.cP, s.m.level (negate l) ≤ backjumpLevel s) ∧
    (s.cP = [] → backjumpLevel s = 0) ∧
    (s.cP ≠ [] → ∃ l ∈ s.cP, s.m.level (negate l) = backjumpLevel s) ∧
    backjumpLevel s < s.m.currentLevel ∧
    (applyBackjump s).m = (s.m.trimToLevel (backjumpLevel s)).assert (negate s.cL) false ∧
    lookupReason (applyBackjump s).reasonMap (negate s.cL) = some s.c ∧
    (s.m.trimToLevel (backjumpLevel s)).isUnit s.c (negate s.cL) = true := by
  have hNc := hinv.2.2.2.2.2
  have hcnt : 1 ≤ countAtCurrent s.m s.cH := by omega
  have hlevL : s.m.level s.cL = s.m.currentLevel :=
    lastLit_level_current s.m s.cH s.cL hwf hinv.2.2.1 hL hcnt
  have hmemL : negate s.cL ∈ s.cH := (lastAsserted_decomp _ _ _ hL).1
  have hcur_pos : 0 < s.m.currentLevel := by
    have := hinv.2.2.1 (negate s.cL) hmemL
    rw [negate_negate] at this
    omega
  have hble : ∀ l ∈ s.cP, s.m.level (negate l) ≤ backjumpLevel s :=
    fun l hl => foldl_max_ge_mem (fun l => s.m.level (negate l)) s.cP 0 l hl
  have hblt : backjumpLevel s < s.m.currentLevel := by
    have hb : backjumpLevel s ≤ s.m.currentLevel - 1 := by
      refine foldl_max_le_bound (fun l => s.m.level (negate l)) s.cP 0
        (s.m.currentLevel - 1) (by omega) ?_
      intro x hx
      show s.m.level (negate x) ≤ s.m.currentLevel - 1
      have h1 : s.m.level (negate x) ≤ s.m.currentLevel :=
        levelInElems_le_decCount s.m.elems (negate x)
      have h2 := (hinv.2.2.2.1 x hx).2
      omega
    omega
  refine ⟨hble, ?_, ?_, hblt, rfl, ?_, ?_⟩
  · intro hP
    show s.cP.foldl (fun acc l => max acc (s.m.level (negate l))) 0 = 0
    rw [hP]
    rfl
  · intro hP
    rcases foldl_max_cases (fun l => s.m.level (negate l)) s.cP 0 with h | ⟨x, hx, h⟩
    · exfalso
      have h0 : backjumpLevel s = 0 := h
      rcases hPd : s.cP with _ | ⟨p, ps⟩
      · exact hP hPd
      · have hpmem : p ∈ s.cP := by rw [hPd]; exact List.mem_cons_self p ps
        have hp1 : 0 < s.m.level (negate p) :=
          hinv.2.2.1 p (hinv.2.2.2.1 p hpmem).1
        have hple := hble p hpmem
        rw [h0] at hple
        omega
    · exact ⟨x, hx, h.symm⟩
  · show lookupReason ((negate s.cL, s.c) :: s.reasonMap) (negate s.cL) = some s.c
    unfold lookupReason
    rw [List.find?_cons_of_pos _ (by simp)]
  · unfold Trail.isUnit
    rw [Bool.and_eq_true]
    constructor
    · rw [List.all_eq_true]
      intro l' hl'
      rw [hc] at hl'
      rcases List.mem_append.mp hl' with h | h
      · rw [Bool.or_eq_true]
        right
        show (s.m.trimToLevel (backjumpLevel s)).isSet (negate l') = true
        have hp : 0 < s.m.level (negate l') := hinv.2.2.1 l' (hinv.2.2.2.1 l' h).1
        obtain ⟨d', he'⟩ := level_pos_mem_mk s.m.elems (negate l') hp
        have hset : s.m.isSet (negate l') = true :=
          (isSet_iff_exists_mem s.m (negate l')).mpr ⟨⟨negate l', d'⟩, he', rfl⟩
        exact isSet_trim_of_level_le s.m (negate l') (backjumpLevel s) hwf hset (hble l' h)
      · rw [List.mem_singleton] at h
        subst h
        rw [Bool.or_eq_true]
        left
        simp
    · -- ¬L unassigned on the truncated trail
      have hclpos : 0 < s.m.level s.cL := by omega
      obtain ⟨d₁, hd₁⟩ := level_pos_mem_mk s.m.elems s.cL hclpos
      have hcl0 : s.cL ≠ 0 := hwf.2 _ hd₁
      have hnotneg : s.m.isSet (negate s.cL) = false := by
        by_contra hcon
        simp only [Bool.not_eq_false] at hcon
        obtain ⟨e₂, he₂, hlit₂⟩ := (isSet_iff_exists_mem s.m (negate s.cL)).mp hcon
        have habs : e₂.lit.natAbs = (⟨s.cL, d₁⟩ : TrailElem).lit.natAbs := by
          show e₂.lit.natAbs = s.cL.natAbs
          rw [hlit₂]
          show (negate s.cL).natAbs = s.cL.natAbs
          simp [negate]
        have heq := List.inj_on_of_nodup_map hwf.1 he₂ hd₁
          (by rw [habs])
        have : e₂.lit = s.cL := by rw [heq]
        rw [hlit₂] at this
        simp only [negate] at this
        omega
      have h1 : (s.m.trimToLevel (backjumpLevel s)).isSet s.cL = false := by
        refine not_isSet_trim_of_level_gt s.m s.cL (backjumpLevel s) hwf ?_
        omega
      have h2 : (s.m.trimToLevel (backjumpLevel s)).isSet (negate s.cL) = false := by
        by_contra hcon
        simp only [Bool.not_eq_false] at hcon
        rw [isSet_of_isSet_trim s.m (negate s.cL) (backjumpLevel s) hcon] at hnotneg
        exact Bool.noConfusion hnotneg
      show (!(s.m.trimToLevel (backjumpLevel s)).isSet (negate s.cL) &&
        !(s.m.trimToLevel (backjumpLevel s)).isSet (negate (negate s.cL))) = true
      rw [negate_negate, h1, h2]
      rfl

/-- **C5**.  After conflict analysis (N = 1, learned clause P ∪ \x7b¬L\x7d),
backjump computes the target level as the maximum over P of the level of
the literal's negation (0 when P is empty), the target is strictly below
the current level, the trail is truncated to the target and ¬L is asserted
there with the learned clause recorded as its reason; and on the truncated
trail the learned clause is unit with ¬L its single unassigned literal. -/
theorem c5_backjump (s : Solver)
    (hwf : TrailWF s.m) (hinv : AnalysisInv s) (hL : IsLastLit s.m s.cH s.cL)
    (hN : s.cN = 1) (hc : s.c = s.cP ++ [negate s.cL]) :
    (∀ l ∈ s.cP, s.m.level (negate l) ≤ backjumpLevel s) ∧
    (s.cP = [] → backjumpLevel s = 0) ∧
    (s.cP ≠ [] → ∃ l ∈ s.cP, s.m.level (negate l) = backjumpLevel s) ∧
    backjumpLevel s < s.m.currentLevel ∧
    (applyBackjump s).m = (s.m.trimToLevel (backjumpLevel s)).assert (negate s.cL) false ∧
    lookupReason (applyBackjump s).reasonMap (negate s.cL) = some s.c ∧
    (s.m.trimToLevel (backjumpLevel s)).isUnit s.c (negate s.cL) = true :=
  backjump_spec s hwf hinv hL hN hc

/-- Witness for C5: backjump from the analysis exit state `exAnalysisExit`
(learned clause `[-1,-2]`, P = \x7b-1\x7d) targets level 1, truncates the trail
there, asserts `-2` with reason `[-1,-2]`, and `[-1,-2]` is unit on the
truncated trail. -/
theorem c5_backjump_witness :
    (∀ l ∈ exAnalysisExit.cP, exAnalysisExit.m.level (negate l) ≤ backjumpLevel exAnalysisExit) ∧
    (exAnalysisExit.cP = [] → backjumpLevel exAnalysisExit = 0) ∧
    (exAnalysisExit.cP ≠ [] →
      ∃ l ∈ exAnalysisExit.cP, exAnalysisExit.m.level (negate l) = backjumpLevel exAnalysisExit) ∧
    backjumpLevel exAnalysisExit < exAnalysisExit.m.currentLevel ∧
    (applyBackjump exAnalysisExit).m =
      (exAnalysisExit.m.trimToLevel (backjumpLevel exAnalysisExit)).assert
        (negate exAnalysisExit.cL) false ∧
    lookupReason (applyBackjump exAnalysisExit).reasonMap (negate exAnalysisExit.cL) =
      some exAnalysisExit.c ∧
    (exAnalysisExit.m.trimToLevel (backjumpLevel exAnalysisExit)).isUnit
      exAnalysisExit.c (negate exAnalysisExit.cL) = true :=
  c5_backjump exAnalysisExit (by decide) (by decide) (by decide) (by decide) (by decide)

/-! ### Basic lemmas for the soundness development -/

theorem currentLevel_assert (m : Trail) (l : Int) (d : Bool) :
    (m.assert l d).currentLevel = (if d then 1 else 0) + m.currentLevel :=
  decCount_cons ⟨l, d⟩ m.elems

theorem trim_assert_lt (m : Trail) (l : Int) (d : Bool) (lv : Nat)
    (h : lv < (m.assert l d).currentLevel) :
    (m.assert l d).trimToLevel lv = m.trimToLevel lv := by
  show Trail.mk (trimElemsToLevel (⟨l, d⟩ :: m.elems) lv) = _
  rw [trim_cons_of_gt ⟨l, d⟩ m.elems lv h]
  rfl

theorem trailWF_assert (m : Trail) (l : Int) (d : Bool) (hwf : TrailWF m)
    (hl : l ≠ 0) (hundef : m.isUndef l = true) : TrailWF (m.assert l d) := by
  simp only [Trail.isUndef, Bool.and_eq_true, Bool.not_eq_true'] at hundef
  constructor
  · show (List.map (fun e => e.lit.natAbs) (⟨l, d⟩ :: m.elems)).Nodup
    rw [List.map_cons, List.nodup_cons]
    refine ⟨?_, hwf.1⟩
    intro hmem
    obtain ⟨e, he, habs⟩ := List.mem_map.mp hmem
    rcases Int.natAbs_eq_natAbs_iff.mp habs with h | h
    · have : m.isSet l = true := (isSet_iff_exists_mem m l).mpr ⟨e, he, h⟩
      rw [hundef.1] at this
      exact Bool.noConfusion this
    · have : m.isSet (negate l) = true := (isSet_iff_exists_mem m (negate l)).mpr ⟨e, he, h⟩
      rw [hundef.2] at this
      exact Bool.noConfusion this
  · intro e he
    rcases List.mem_cons.mp he with h | h
    · rw [h]; exact hl
    · exact hwf.2 e h

theorem trailWF_trim (m : Trail) (lv : Nat) (hwf : TrailWF m) :
    TrailWF (m.trimToLevel lv) := by
  obtain ⟨pre, hpre⟩ := trim_suffix m.elems lv
  constructor
  · have : (List.map (fun e => e.lit.natAbs) m.elems).Nodup := hwf.1
    rw [hpre, List.map_append] at this
    exact (List.nodup_append.mp this).2.1
  · intro e he
    refine hwf.2 e ?_
    rw [hpre]
    exact List.mem_append_right pre he

theorem findUnit_some_spec (m : Trail) :
    ∀ (f : Formula) (c : Clause) (l : Int), findUnit m f = some (c, l) →
      c ∈ f ∧ l ∈ c ∧ m.isUnit c l = true := by
  intro f
  induction f with
  | nil => intro c l h; exact Option.noConfusion h
  | cons c₀ rest ih =>
      intro c l h
      unfold findUnit at h
      rcases hfc : findUnitInClause m c₀ with _ | l₀
      · simp only [hfc] at h
        obtain ⟨hc, hl, hu⟩ := ih c l h
        exact ⟨List.mem_cons_of_mem c₀ hc, hl, hu⟩
      · simp only [hfc, Option.some.injEq, Prod.mk.injEq] at h
        obtain ⟨hc, hl⟩ := h
        subst hc; subst hl
        refine ⟨List.mem_cons_self _ _, ?_, ?_⟩
        · exact List.mem_of_find?_eq_some hfc
        · exact List.find?_some hfc

theorem isFormulaFalse_none_iff (m : Trail) (f : Formula) :
    isFormulaFalse m f = none ↔ ∀ c ∈ f, m.clauseFalse c = false := by
  unfold isFormulaFalse
  rw [List.find?_eq_none]
  constructor
  · intro h c hc
    have := h c hc
    simp only [Bool.not_eq_true] at this
    exact this
  · intro h c hc
    rw [h c hc]
    exact Bool.noConfusion

theorem isFormulaFalse_some_spec (m : Trail) (f : Formula) (cc : Clause)
    (h : isFormulaFalse m f = some cc) :
    cc ∈ f ∧ m.clauseFalse cc = true :=
  ⟨List.mem_of_find?_eq_some h, List.find?_some h⟩

theorem nodup_cast_map (l : List TrailElem)
    (h : (l.map (fun e => e.lit.natAbs)).Nodup) :
    (l.map (fun e => ((e.lit.natAbs : Int)))).Nodup := by
  induction l with
  | nil => exact List.nodup_nil
  | cons e es ih =>
      rw [List.map_cons, List.nodup_cons] at h ⊢
      refine ⟨?_, ih h.2⟩
      intro hmem
      obtain ⟨e', he', hc⟩ := List.mem_map.mp hmem
      refine h.1 ?_
      have : e'.lit.natAbs = e.lit.natAbs := by exact_mod_cast hc
      rw [← this]
      exact List.mem_map_of_mem _ he'

/-- When the trail assigns fewer variables than the universe holds, some
variable of the universe is unassigned. -/
theorem exists_unassigned (V : List Int) (m : Trail)
    (hV : V.Nodup) (hpos : ∀ v ∈ V, 0 < v) (hwf : TrailWF m)
    (hsub : ∀ e ∈ m.elems, ((e.lit.natAbs : Int)) ∈ V)
    (hlen : m.len ≠ V.length) :
    ∃ v ∈ V, m.isUndef v = true := by
  set L := m.elems.map (fun e => ((e.lit.natAbs : Int))) with hL
  have hLnd : L.Nodup := nodup_cast_map m.elems hwf.1
  have hLsub : L ⊆ V := by
    intro x hx
    obtain ⟨e, he, hc⟩ := List.mem_map.mp hx
    rw [← hc]
    exact hsub e he
  have hLlen : L.length = m.len := by
    rw [hL, List.length_map]
    rfl
  have hlt : L.length < V.length := by
    have := (List.subperm_of_subset hLnd hLsub).length_le
    omega
  have hnotsub : ¬ (V ⊆ L) := by
    intro hVsub
    have := (List.subperm_of_subset hV hVsub).length_le
    omega
  rw [List.subset_def] at hnotsub
  push_neg at hnotsub
  obtain ⟨v, hv, hvL⟩ := hnotsub
  refine ⟨v, hv, ?_⟩
  have hv0 := hpos v hv
  simp only [Trail.isUndef, Bool.and_eq_true, Bool.not_eq_true']
  constructor
  · by_contra hcon
    simp only [Bool.not_eq_false] at hcon
    obtain ⟨e, he, hlit⟩ := (isSet_iff_exists_mem m v).mp hcon
    apply hvL
    rw [hL]
    refine List.mem_map.mpr ⟨e, he, ?_⟩
    rw [hlit, Int.natAbs_of_nonneg (by omega)]
  · by_contra hcon
    simp only [Bool.not_eq_false] at hcon
    obtain ⟨e, he, hlit⟩ := (isSet_iff_exists_mem m (negate v)).mp hcon
    apply hvL
    rw [hL]
    refine List.mem_map.mpr ⟨e, he, ?_⟩
    rw [hlit]
    show ((negate v).natAbs : Int) = v
    simp only [negate, Int.natAbs_neg]
    rw [Int.natAbs_of_nonneg (by omega)]

/-- When the trail assigns as many variables as the universe holds, every
variable of the universe is assigned (in one polarity). -/
theorem all_assigned (V : List Int) (m : Trail)
    (_hV : V.Nodup) (hpos : ∀ v ∈ V, 0 < v) (hwf : TrailWF m)
    (hsub : ∀ e ∈ m.elems, ((e.lit.natAbs : Int)) ∈ V)
    (hlen : m.len = V.length) :
    ∀ v ∈ V, m.isSet v = true ∨ m.isSet (negate v) = true := by
  set L := m.elems.map (fun e => ((e.lit.natAbs : Int))) with hL
  have hLnd : L.Nodup := nodup_cast_map m.elems hwf.1
  have hLsub : L ⊆ V := by
    intro x hx
    obtain ⟨e, he, hc⟩ := List.mem_map.mp hx
    rw [← hc]
    exact hsub e he
  have hLlen : L.length = V.length := by
    rw [hL, List.length_map]
    exact hlen
  have hperm : L.Perm V :=
    (List.subperm_of_subset hLnd hLsub).perm_of_length_le (by omega)
  intro v hv
  have hvL : v ∈ L := hperm.mem_iff.mpr hv
  obtain ⟨e, he, hc⟩ := List.mem_map.mp hvL
  have hv0 := hpos v hv
  have habs : e.lit.natAbs = v.natAbs := by
    have : ((v.natAbs : Int)) = v := Int.natAbs_of_nonneg (by omega)
    have h2 : ((e.lit.natAbs : Int)) = ((v.natAbs : Int)) := by rw [hc, this]
    exact_mod_cast h2
  rcases Int.natAbs_eq_natAbs_iff.mp habs with h | h
  · left
    exact (isSet_iff_exists_mem m v).mpr ⟨e, he, h⟩
  · right
    refine (isSet_iff_exists_mem m (negate v)).mpr ⟨e, he, ?_⟩
    rw [h]
    rfl

/-! ### Variable-universe bookkeeping of formula ingestion -/

theorem addVar_subset (vs : List Int) (l : Int) :
    vs ⊆ (if ((l.natAbs : Int)) ∈ vs then vs else vs ++ [((l.natAbs : Int))]) := by
  by_cases h : ((l.natAbs : Int)) ∈ vs
  · rw [if_pos h]
    exact fun x hx => hx
  · rw [if_neg h]
    exact List.subset_append_left vs _

theorem addVarsOfClause_subset (c : Clause) :
    ∀ vs : List Int, vs ⊆ addVarsOfClause vs c := by
  induction c with
  | nil => intro vs; exact fun x hx => hx
  | cons a as ih =>
      intro vs
      show vs ⊆ addVarsOfClause
        (if ((a.natAbs : Int)) ∈ vs then vs else vs ++ [((a.natAbs : Int))]) as
      exact List.Subset.trans (addVar_subset vs a) (ih _)

theorem addVarsOfClause_mem (c : Clause) :
    ∀ (vs : List Int) (l : Int), l ∈ c → ((l.natAbs : Int)) ∈ addVarsOfClause vs c := by
  induction c with
  | nil =>
      intro vs l hl
      exact absurd hl (List.not_mem_nil l)
  | cons a as ih =>
      intro vs l hl
      rcases List.mem_cons.mp hl with h | h
      · subst h
        show ((l.natAbs : Int)) ∈ addVarsOfClause
          (if ((l.natAbs : Int)) ∈ vs then vs else vs ++ [((l.natAbs : Int))]) as
        refine addVarsOfClause_subset as _ ?_
        by_cases hm : ((l.natAbs : Int)) ∈ vs
        · rw [if_pos hm]; exact hm
        · rw [if_neg hm]
          exact List.mem_append_right vs (List.mem_singleton.mpr rfl)
      · exact ih _ l h

theorem addVarsOfClause_src (c : Clause) :
    ∀ (vs : List Int) (v : Int), v ∈ addVarsOfClause vs c →
      v ∈ vs ∨ ∃ l ∈ c, v = ((l.natAbs : Int)) := by
  induction c with
  | nil => intro vs v hv; exact Or.inl hv
  | cons a as ih =>
      intro vs v hv
      have hv' : v ∈ addVarsOfClause
          (if ((a.natAbs : Int)) ∈ vs then vs else vs ++ [((a.natAbs : Int))]) as := hv
      rcases ih _ v hv' with h | ⟨l, hl, he⟩
      · by_cases hm : ((a.natAbs : Int)) ∈ vs
        · rw [if_pos hm] at h
          exact Or.inl h
        · rw [if_neg hm] at h
          rcases List.mem_append.mp h with h' | h'
          · exact Or.inl h'
          · exact Or.inr ⟨a, List.mem_cons_self a as, List.mem_singleton.mp h'⟩
      · exact Or.inr ⟨l, List.mem_cons_of_mem a hl, he⟩

theorem addVarsOfClause_nodup (c : Clause) :
    ∀ vs : List Int, vs.Nodup → (addVarsOfClause vs c).Nodup := by
  induction c with
  | nil => intro vs h; exact h
  | cons a as ih =>
      intro vs h
      show (addVarsOfClause
        (if ((a.natAbs : Int)) ∈ vs then vs else vs ++ [((a.natAbs : Int))]) as).Nodup
      refine ih _ ?_
      by_cases hm : ((a.natAbs : Int)) ∈ vs
      · rw [if_pos hm]; exact h
      · rw [if_neg hm, List.nodup_append]
        refine ⟨h, List.nodup_singleton _, ?_⟩
        intro x hx hx'
        rw [List.mem_singleton] at hx'
        rw [hx'] at hx
        exact hm hx

theorem foldlAV_subset (fs : Formula) :
    ∀ vs : List Int, vs ⊆ fs.foldl addVarsOfClause vs := by
  induction fs with
  | nil => intro vs; exact fun x hx => hx
  | cons c cs ih =>
      intro vs
      rw [List.foldl_cons]
      exact List.Subset.trans (addVarsOfClause_subset c vs) (ih _)

theorem foldlAV_mem (fs : Formula) :
    ∀ (vs : List Int) (c : Clause) (l : Int), c ∈ fs → l ∈ c →
      ((l.natAbs : Int)) ∈ fs.foldl addVarsOfClause vs := by
  induction fs with
  | nil =>
      intro vs c l hc
      exact absurd hc (List.not_mem_nil c)
  | cons c₀ cs ih =>
      intro vs c l hc hl
      rw [List.foldl_cons]
      rcases List.mem_cons.mp hc with h | h
      · subst h
        exact foldlAV_subset cs _ (addVarsOfClause_mem c vs l hl)
      · exact ih _ c l h hl

theorem foldlAV_src (fs : Formula) :
    ∀ (vs : List Int) (v : Int), v ∈ fs.foldl addVarsOfClause vs →
      v ∈ vs ∨ ∃ c ∈ fs, ∃ l ∈ c, v = ((l.natAbs : Int)) := by
  induction fs with
  | nil => intro vs v hv; exact Or.inl hv
  | cons c₀ cs ih =>
      intro vs v hv
      rw [List.foldl_cons] at hv
      rcases ih _ v hv with h | ⟨c, hc, l, hl, he⟩
      · rcases addVarsOfClause_src c₀ vs v h with h' | ⟨l, hl, he⟩
        · exact Or.inl h'
        · exact Or.inr ⟨c₀, List.mem_cons_self c₀ cs, l, hl, he⟩
      · exact Or.inr ⟨c, List.mem_cons_of_mem c₀ hc, l, hl, he⟩

theorem foldlAV_nodup (fs : Formula) :
    ∀ vs : List Int, vs.Nodup → (fs.foldl addVarsOfClause vs).Nodup := by
  induction fs with
  | nil => intro vs h; exact h
  | cons c cs ih =>
      intro vs h
      rw [List.foldl_cons]
      exact ih _ (addVarsOfClause_nodup c vs h)

/-- Ingesting a formula of nonzero literals into a fresh solver establishes
the search invariant. -/
theorem searchInv_init (f0 : Formula) (hnz : ∀ c ∈ f0, ∀ l ∈ c, l ≠ 0) :
    SearchInv (addFormula newSolver f0).vars f0 (addFormula newSolver f0) := by
  refine ⟨rfl, ?_, ?_, ?_, ?_, ?_, ?_, ?_, rfl⟩
  · show (f0.foldl addVarsOfClause []).Nodup
    exact foldlAV_nodup f0 [] List.nodup_nil
  · intro v hv
    rcases foldlAV_src f0 [] v hv with h | ⟨c, hc, l, hl, he⟩
    · exact absurd h (List.not_mem_nil v)
    · have h0 : l.natAbs ≠ 0 := Int.natAbs_ne_zero.mpr (hnz c hc l hl)
      omega
  · intro c hc l hl
    have hc' : c ∈ f0 := hc
    exact ⟨hnz c hc' l hl, foldlAV_mem f0 [] c l hc' hl⟩
  · exact ⟨List.nodup_nil, fun e he => absurd he (List.not_mem_nil e)⟩
  · intro e he
    exact absurd he (List.not_mem_nil e)
  · refine ⟨[], ?_⟩
    show [] ++ f0 = f0 ++ []
    simp
  · intro lv hlv
    simp [Trail.currentLevel, decCount, addFormula, newSolver] at hlv

/-! ### Invariant preservation through one solve iteration -/

theorem analysisInv_transport (s t : Solver) (hm : t.m = s.m) (hH : t.cH = s.cH)
    (hP : t.cP = s.cP) (hN : t.cN = s.cN) (h : AnalysisInv s) : AnalysisInv t := by
  unfold AnalysisInv at h ⊢
  rw [hm, hH, hP, hN]
  exact h

theorem isLastLit_transport (s t : Solver) (hm : t.m = s.m) (hH : t.cH = s.cH)
    (hL : t.cL = s.cL) (h : IsLastLit s.m s.cH s.cL) :
    IsLastLit t.m t.cH t.cL := by
  unfold IsLastLit at h ⊢
  rw [hm, hH, hL]
  exact h

theorem clauseFalse_forall (m : Trail) (c : Clause) (h : m.clauseFalse c = true) :
    ∀ l ∈ c, m.litFalse l = true :=
  fun l hl => List.all_eq_true.mp h l hl

theorem clauseFalse_false_exists (m : Trail) (c : Clause)
    (h : m.clauseFalse c = false) : ∃ l ∈ c, m.litFalse l = false := by
  by_contra hcon
  push_neg at hcon
  have hall : m.clauseFalse c = true := by
    refine List.all_eq_true.mpr ?_
    intro l hl
    rcases Bool.eq_false_or_eq_true (m.litFalse l) with hb | hb
    · exact hb
    · exact absurd hb (hcon l hl)
  rw [h] at hall
  exact Bool.noConfusion hall

theorem clauseFalse_false_of_mem (m : Trail) (c : Clause) (l : Int)
    (hl : l ∈ c) (h : m.litFalse l = false) : m.clauseFalse c = false := by
  rw [Bool.eq_false_iff]
  intro hall
  have := List.all_eq_true.mp hall l hl
  rw [h] at this
  exact Bool.noConfusion this

/-- One unit-propagation assertion preserves the search invariant. -/
theorem propagateOne_searchInv (V : List Int) (f0 : Formula) (s : Solver)
    (c : Clause) (l : Int) (hinv : SearchInv V f0 s)
    (hfu : findUnit s.m s.f = some (c, l)) :
    SearchInv V f0 (propagateOne s c l) := by
  obtain ⟨hvars, hVnd, hVpos, hf, hwf, htrV, hpref, hinv1, hdl⟩ := hinv
  obtain ⟨hcf, hlc, hunit⟩ := findUnit_some_spec s.m s.f c l hfu
  have hundef : s.m.isUndef l = true := by
    have h2 := hunit
    unfold Trail.isUnit at h2
    simp only [Bool.and_eq_true] at h2
    exact h2.2
  have hl0 : l ≠ 0 := (hf c hcf l hlc).1
  have hlV : ((l.natAbs : Int)) ∈ V := (hf c hcf l hlc).2
  refine ⟨hvars, hVnd, hVpos, hf, ?_, ?_, hpref, ?_, hdl⟩
  · exact trailWF_assert s.m l false hwf hl0 hundef
  · intro e he
    rcases List.mem_cons.mp he with h | h
    · rw [h]; exact hlV
    · exact htrV e h
  · intro lv hlv
    have hca : (s.m.assert l false).currentLevel = s.m.currentLevel := by
      rw [currentLevel_assert]
      simp
    show isFormulaFalse ((s.m.assert l false).trimToLevel lv) s.f = none
    have hlv' : lv < (s.m.assert l false).currentLevel := hlv
    rw [trim_assert_lt s.m l false lv hlv']
    refine hinv1 lv ?_
    rw [hca] at hlv'
    exact hlv'

/-- Unit propagation preserves the search invariant. -/
theorem unitPropagate_searchInv (V : List Int) (f0 : Formula) :
    ∀ (fuel : Nat) (s s' : Solver), SearchInv V f0 s →
      unitPropagate fuel s = some s' → SearchInv V f0 s' := by
  intro fuel
  induction fuel with
  | zero => intro s s' _ h; exact Option.noConfusion h
  | succ n ih =>
      intro s s' hinv h
      unfold unitPropagate at h
      rcases hfu : findUnit s.m s.f with _ | ⟨c, l⟩
      · simp only [hfu, Option.some.injEq] at h
        rw [← h]; exact hinv
      · simp only [hfu] at h
        have hinv' := propagateOne_searchInv V f0 s c l hinv hfu
        rcases hff : isFormulaFalse (propagateOne s c l).m (propagateOne s c l).f with _ | cc
        · simp only [hff] at h
          exact ih _ _ hinv' h
        · simp only [hff, Option.some.injEq] at h
          rw [← h]; exact hinv'

/-- Handling a conflict at a positive decision level — analysis, optional
learning, backjump — preserves the search invariant. -/
theorem conflictStep_searchInv (V : List Int) (f0 : Formula) (s₁ s₃ : Solver) (cc : Clause)
    (hinv : SearchInv V f0 s₁)
    (hcc : isFormulaFalse s₁.m s₁.f = some cc)
    (hlev : (applyConflict s₁ cc).m.currentLevel ≠ 0)
    (hUIP : applyExplainUIP ((applyConflict s₁ cc).m.len + 1) (applyConflict s₁ cc) = some s₃) :
    SearchInv V f0
      (applyBackjump (if s₃.c.length > 1 then { s₃ with f := s₃.f ++ [s₃.c] } else s₃)) := by
  obtain ⟨hvars, hVnd, hVpos, hf, hwf, htrV, hpref, hinv1, hdl⟩ := hinv
  have hm2 : (applyConflict s₁ cc).m = s₁.m := (applyConflict_coreEq s₁ cc).2.2.1
  have hcur1 : 1 ≤ s₁.m.currentLevel := by
    rw [hm2] at hlev
    omega
  obtain ⟨hccf, hccfalse⟩ := isFormulaFalse_some_spec s₁.m s₁.f cc hcc
  have hnone : isFormulaFalse (s₁.m.trimToLevel (s₁.m.currentLevel - 1)) s₁.f = none :=
    hinv1 (s₁.m.currentLevel - 1) (by omega)
  have hccnf : (s₁.m.trimToLevel (s₁.m.currentLevel - 1)).clauseFalse cc = false :=
    (isFormulaFalse_none_iff _ _).mp hnone cc hccf
  obtain ⟨l₀, hl₀c, hl₀f⟩ := clauseFalse_false_exists _ cc hccnf
  have hl₀m : s₁.m.litFalse l₀ = true := clauseFalse_forall s₁.m cc hccfalse l₀ hl₀c
  have hlev0 : s₁.m.level (negate l₀) = s₁.m.currentLevel := by
    have hle : s₁.m.level (negate l₀) ≤ s₁.m.currentLevel :=
      levelInElems_le_decCount s₁.m.elems (negate l₀)
    by_contra hne
    have hle' : s₁.m.level (negate l₀) ≤ s₁.m.currentLevel - 1 := by omega
    have hset := isSet_trim_of_level_le s₁.m (negate l₀) (s₁.m.currentLevel - 1) hwf hl₀m hle'
    have hl₀f' : (s₁.m.trimToLevel (s₁.m.currentLevel - 1)).isSet (negate l₀) = false := hl₀f
    rw [hset] at hl₀f'
    exact Bool.noConfusion hl₀f'
  have hex : ∃ l ∈ cc, 0 < s₁.m.level (negate l) ∧
      s₁.m.level (negate l) = s₁.m.currentLevel :=
    ⟨l₀, hl₀c, by omega, hlev0⟩
  obtain ⟨hainv, haL, haN⟩ := applyConflict_analysis s₁ cc hex
  obtain ⟨hinv₃, hL₃, hN₃⟩ := applyExplainUIP_inv _ _ s₃
    (by rw [hm2]; exact hwf) hainv haL (by omega) hUIP
  have hcore₃ := applyExplainUIP_coreEq _ _ _ hUIP
  have hm3 : s₃.m = s₁.m := by rw [hcore₃.2.2.1, hm2]
  have hf3 : s₃.f = s₁.f := by rw [hcore₃.2.1, (applyConflict_coreEq s₁ cc).2.1]
  have hv3 : s₃.vars = s₁.vars := by rw [hcore₃.2.2.2.2.1, (applyConflict_coreEq s₁ cc).2.2.2.2.1]
  have hd3 : s₃.decideLiterals = s₁.decideLiterals := by
    rw [hcore₃.2.2.2.2.2, (applyConflict_coreEq s₁ cc).2.2.2.2.2]
  have hshape := (applyExplainUIP_c_shape _ _ _ hUIP).1
  set s₄ := if s₃.c.length > 1 then { s₃ with f := s₃.f ++ [s₃.c] } else s₃ with hs₄
  have h4 : s₄.m = s₃.m ∧ s₄.cH = s₃.cH ∧ s₄.cP = s₃.cP ∧ s₄.cL = s₃.cL ∧
      s₄.cN = s₃.cN ∧ s₄.c = s₃.c ∧ s₄.vars = s₃.vars ∧
      s₄.decideLiterals = s₃.decideLiterals := by
    rw [hs₄]
    by_cases hlen : s₃.c.length > 1
    · rw [if_pos hlen]
      exact ⟨rfl, rfl, rfl, rfl, rfl, rfl, rfl, rfl⟩
    · rw [if_neg hlen]
      exact ⟨rfl, rfl, rfl, rfl, rfl, rfl, rfl, rfl⟩
  have hf4 : s₄.f = s₃.f ∨ (s₄.f = s₃.f ++ [s₃.c] ∧ s₃.cP ≠ []) := by
    rw [hs₄]
    by_cases hlen : s₃.c.length > 1
    · rw [if_pos hlen]
      refine Or.inr ⟨rfl, ?_⟩
      intro hP
      rw [hshape, hP] at hlen
      simp at hlen
    · rw [if_neg hlen]
      exact Or.inl rfl
  have hainv₄ : AnalysisInv s₄ :=
    analysisInv_transport s₃ s₄ h4.1 h4.2.1 h4.2.2.1 h4.2.2.2.2.1 hinv₃
  have hL₄ : IsLastLit s₄.m s₄.cH s₄.cL :=
    isLastLit_transport s₃ s₄ h4.1 h4.2.1 h4.2.2.2.1 hL₃
  have hN₄ : s₄.cN = 1 := by rw [h4.2.2.2.2.1]; exact hN₃
  have hc₄ : s₄.c = s₄.cP ++ [negate s₄.cL] := by
    rw [h4.2.2.2.2.2.1, h4.2.2.1, h4.2.2.2.1]
    exact hshape
  have hwf₄ : TrailWF s₄.m := by rw [h4.1, hm3]; exact hwf
  obtain ⟨hble, hP0, hPex, hjlt, htrail, hreason, hunit⟩ :=
    backjump_spec s₄ hwf₄ hainv₄ hL₄ hN₄ hc₄
  have hm41 : s₄.m = s₁.m := by rw [h4.1, hm3]
  -- the literal ¬L is nonzero with its variable in V
  have hcnt₄ : 1 ≤ countAtCurrent s₄.m s₄.cH := by
    have := hainv₄.2.2.2.2.2
    omega
  have hlevL₄ : s₄.m.level s₄.cL = s₄.m.currentLevel :=
    lastLit_level_current s₄.m s₄.cH s₄.cL hwf₄ hainv₄.2.2.1 hL₄ hcnt₄
  have hcurlev₄ : s₄.m.currentLevel = s₁.m.currentLevel := by rw [hm41]
  have hclpos : 0 < s₄.m.level s₄.cL := by omega
  obtain ⟨dL, hdL⟩ := level_pos_mem_mk s₄.m.elems s₄.cL hclpos
  have hdL1 : (⟨s₄.cL, dL⟩ : TrailElem) ∈ s₁.m.elems := by rw [← hm41]; exact hdL
  have hcl0 : s₄.cL ≠ 0 := hwf.2 _ hdL1
  have hclV : ((s₄.cL.natAbs : Int)) ∈ V := htrV _ hdL1
  -- variables of H-literals lie in V and are nonzero
  have hHlits : ∀ x ∈ s₄.cH, x ≠ 0 ∧ ((x.natAbs : Int)) ∈ V := by
    intro x hx
    have hp : 0 < s₄.m.level (negate x) := hainv₄.2.2.1 x hx
    obtain ⟨dx, hdx⟩ := level_pos_mem_mk s₄.m.elems (negate x) hp
    have hdx1 : (⟨negate x, dx⟩ : TrailElem) ∈ s₁.m.elems := by rw [← hm41]; exact hdx
    have hnx0 : negate x ≠ 0 := hwf.2 _ hdx1
    have hnxV : (((negate x).natAbs : Int)) ∈ V := htrV _ hdx1
    constructor
    · intro hx0
      rw [hx0] at hnx0
      exact hnx0 rfl
    · have : (negate x).natAbs = x.natAbs := by
        simp [negate]
      rw [← this]
      exact hnxV
  -- unitness gives the freshness of ¬L on the truncated trail
  have hundefL : (s₄.m.trimToLevel (backjumpLevel s₄)).isUndef (negate s₄.cL) = true := by
    have h2 := hunit
    unfold Trail.isUnit at h2
    simp only [Bool.and_eq_true] at h2
    exact h2.2
  have hcur5 : (applyBackjump s₄).m.currentLevel = backjumpLevel s₄ := by
    rw [htrail, currentLevel_assert]
    have : (s₄.m.trimToLevel (backjumpLevel s₄)).currentLevel = backjumpLevel s₄ := by
      show decCount (trimElemsToLevel s₄.m.elems (backjumpLevel s₄)) = backjumpLevel s₄
      exact decCount_trim_eq s₄.m.elems (backjumpLevel s₄) (by
        show backjumpLevel s₄ ≤ decCount s₄.m.elems
        have : s₄.m.currentLevel = decCount s₄.m.elems := rfl
        omega)
    rw [this]
    simp
  refine ⟨?_, hVnd, hVpos, ?_, ?_, ?_, ?_, ?_, ?_⟩
  · show s₄.vars = V
    rw [h4.2.2.2.2.2.2.1, hv3]
    exact hvars
  · -- literals of the possibly-extended formula
    show ∀ c ∈ s₄.f, ∀ l ∈ c, l ≠ 0 ∧ ((l.natAbs : Int)) ∈ V
    intro c hc l hl
    rcases hf4 with h | ⟨h, hPne⟩
    · rw [h, hf3] at hc
      exact hf c hc l hl
    · rw [h] at hc
      rcases List.mem_append.mp hc with h' | h'
      · rw [hf3] at h'
        exact hf c h' l hl
      · rw [List.mem_singleton] at h'
        subst h'
        rw [hshape] at hl
        rcases List.mem_append.mp hl with h'' | h''
        · have hlH : l ∈ s₄.cH := by
            rw [h4.2.1]
            exact (hinv₃.2.2.2.1 l h'').1
          exact hHlits l hlH
        · rw [List.mem_singleton] at h''
          subst h''
          have hcl0' : s₃.cL ≠ 0 := by rw [← h4.2.2.2.1]; exact hcl0
          have hclV' : ((s₃.cL.natAbs : Int)) ∈ V := by rw [← h4.2.2.2.1]; exact hclV
          constructor
          · show negate s₃.cL ≠ 0
            simp only [negate]
            omega
          · show (((negate s₃.cL).natAbs : Int)) ∈ V
            have habs : (negate s₃.cL).natAbs = s₃.cL.natAbs := by simp [negate]
            rw [habs]
            exact hclV'
  · -- trail well-formedness after backjump
    show TrailWF (applyBackjump s₄).m
    rw [htrail]
    refine trailWF_assert _ _ _ (trailWF_trim s₄.m (backjumpLevel s₄) hwf₄) ?_ hundefL
    show negate s₄.cL ≠ 0
    simp only [negate]
    omega
  · -- trail variables in V
    show ∀ e ∈ (applyBackjump s₄).m.elems, ((e.lit.natAbs : Int)) ∈ V
    rw [htrail]
    intro e he
    rcases List.mem_cons.mp he with h | h
    · rw [h]
      show (((negate s₄.cL).natAbs : Int)) ∈ V
      have : (negate s₄.cL).natAbs = s₄.cL.natAbs := by simp [negate]
      rw [this]
      exact hclV
    · obtain ⟨pre₀, hpre₀⟩ := trim_suffix s₄.m.elems (backjumpLevel s₄)
      refine htrV e ?_
      rw [← hm41, hpre₀]
      exact List.mem_append_right pre₀ h
  · -- the original formula stays a prefix
    obtain ⟨t, ht⟩ := hpref
    rcases hf4 with h | ⟨h, _⟩
    · refine ⟨t, ?_⟩
      show s₄.f = f0 ++ t
      rw [h, hf3]
      exact ht
    · refine ⟨t ++ [s₃.c], ?_⟩
      show s₄.f = f0 ++ (t ++ [s₃.c])
      rw [h, hf3, ht, List.append_assoc]
  · -- lower levels never falsify the formula
    intro lv hlv
    rw [hcur5] at hlv
    have htrim5 : (applyBackjump s₄).m.trimToLevel lv = s₁.m.trimToLevel lv := by
      rw [htrail]
      have hlt : lv < ((s₄.m.trimToLevel (backjumpLevel s₄)).assert
          (negate s₄.cL) false).currentLevel := by
        rw [← htrail, hcur5]
        exact hlv
      rw [trim_assert_lt _ _ _ lv hlt]
      show Trail.mk (trimElemsToLevel (trimElemsToLevel s₄.m.elems (backjumpLevel s₄)) lv) =
        s₁.m.trimToLevel lv
      rw [trim_trim s₄.m.elems (backjumpLevel s₄) lv (by omega)]
      rw [hm41]
      rfl
    rw [htrim5]
    show isFormulaFalse (s₁.m.trimToLevel lv) s₄.f = none
    have hlvcur : lv < s₁.m.currentLevel := by omega
    have hold := hinv1 lv hlvcur
    rcases hf4 with h | ⟨h, hPne⟩
    · rw [h, hf3]
      exact hold
    · rw [h, hf3]
      rw [isFormulaFalse_none_iff]
      intro c hc
      rcases List.mem_append.mp hc with h' | h'
      · exact (isFormulaFalse_none_iff _ _).mp hold c h'
      · rw [List.mem_singleton] at h'
        subst h'
        obtain ⟨lmax, hlmaxP, hlmaxlev⟩ := hPex (by rw [h4.2.2.1]; exact hPne)
        have hlmaxc : lmax ∈ s₃.c := by
          rw [hshape]
          refine List.mem_append_left _ ?_
          rw [← h4.2.2.1]
          exact hlmaxP
        have hlev1 : s₁.m.level (negate lmax) = backjumpLevel s₄ := by
          rw [← hm41]
          exact hlmaxlev
        have hns := not_isSet_trim_of_level_gt s₁.m (negate lmax) lv hwf (by omega)
        exact clauseFalse_false_of_mem _ s₃.c lmax hlmaxc hns
  · show s₄.decideLiterals = []
    rw [h4.2.2.2.2.2.2.2, hd3]
    exact hdl

/-- A decision step preserves the search invariant. -/
theorem decisionStep_searchInv (V : List Int) (f0 : Formula) (s₁ s₂ : Solver)
    (lit : Int) (ord : List Int)
    (hinv : SearchInv V f0 s₁)
    (hff : isFormulaFalse s₁.m s₁.f = none)
    (hlen : s₁.m.len ≠ s₁.vars.length)
    (hord : ord.Perm V)
    (hsel : selectLiteral s₁ ord = Except.ok (lit, s₂)) :
    SearchInv V f0 { s₂ with m := s₂.m.assert lit true } := by
  obtain ⟨hvars, hVnd, hVpos, hf, hwf, htrV, hpref, hinv1, hdl⟩ := hinv
  have hordpos : ∀ v ∈ ord, 0 < v := fun v hv => hVpos v (hord.mem_iff.mp hv)
  have hsome : ∃ v ∈ ord, s₁.m.isUndef v = true := by
    have hlen' : s₁.m.len ≠ V.length := by rw [← hvars]; exact hlen
    obtain ⟨v, hv, hu⟩ := exists_unassigned V s₁.m hVnd hVpos hwf htrV hlen'
    exact ⟨v, hord.mem_iff.mpr hv, hu⟩
  obtain ⟨hs₂, hlitpos, hlitord, hset1, hset2⟩ :=
    selectLiteral_default_spec s₁ ord lit s₂ hdl hordpos hsome hsel
  subst hs₂
  have hlitV : lit ∈ V := hord.mem_iff.mp hlitord
  have hlit0 : lit ≠ 0 := by omega
  have hundef : s₂.m.isUndef lit = true := by
    simp [Trail.isUndef, hset1, hset2]
  have habs : ((lit.natAbs : Int)) = lit := Int.natAbs_of_nonneg (by omega)
  refine ⟨hvars, hVnd, hVpos, hf, ?_, ?_, hpref, ?_, hdl⟩
  · exact trailWF_assert s₂.m lit true hwf hlit0 hundef
  · intro e he
    rcases List.mem_cons.mp he with h | h
    · rw [h]
      show ((lit.natAbs : Int)) ∈ V
      rw [habs]
      exact hlitV
    · exact htrV e h
  · intro lv hlv
    have hca : (s₂.m.assert lit true).currentLevel = 1 + s₂.m.currentLevel := by
      rw [currentLevel_assert]
      simp
    show isFormulaFalse ((s₂.m.assert lit true).trimToLevel lv) s₂.f = none
    have hlv' : lv < (s₂.m.assert lit true).currentLevel := hlv
    rw [trim_assert_lt s₂.m lit true lv hlv']
    rw [hca] at hlv'
    by_cases hcase : lv < s₂.m.currentLevel
    · exact hinv1 lv hcase
    · have hle : lv = s₂.m.currentLevel := by omega
      have htr : s₂.m.trimToLevel lv = s₂.m := by
        rw [hle]
        show Trail.mk (trimElemsToLevel s₂.m.elems (decCount s₂.m.elems)) = s₂.m
        rw [trim_eq_of_le s₂.m.elems (decCount s₂.m.elems) (le_refl _)]
      rw [htr]
      exact hff

theorem searchInv_coreEq (V : List Int) (f0 : Formula) (s t : Solver)
    (h : coreEq s t) (hs : SearchInv V f0 s) : SearchInv V f0 t := by
  unfold SearchInv
  rw [h.2.1, h.2.2.1, h.2.2.2.2.1, h.2.2.2.2.2]
  exact hs

/-- One iteration of the solve loop preserves the search invariant; the
Satisfied exit additionally certifies a conflict-free, complete
assignment. -/
theorem solveStep_searchInv (V : List Int) (f0 : Formula) (ord : List Int) (s : Solver)
    (hinv : SearchInv V f0 s) (hord : ord.Perm V) :
    (∀ s', solveStep ord s = .next s' → SearchInv V f0 s') ∧
    (∀ s', solveStep ord s = .nextD s' → SearchInv V f0 s') ∧
    (∀ r s', solveStep ord s = .done r s' → SearchInv V f0 s' ∧
      (r = true → isFormulaFalse s'.m s'.f = none ∧ s'.m.len = s'.vars.length)) := by
  refine ⟨?_, ?_, ?_⟩
  · intro s' hstep
    unfold solveStep at hstep
    rcases hup : unitPropagate (s.vars.length + 1) s with _ | s₁ <;>
      simp only [hup] at hstep
    · exact StepRes.noConfusion hstep
    · have hinv₁ := unitPropagate_searchInv V f0 _ s s₁ hinv hup
      rcases hff : isFormulaFalse s₁.m s₁.f with _ | cc <;> simp only [hff] at hstep
      · split at hstep
        · exact StepRes.noConfusion hstep
        · rcases hsel : selectLiteral s₁ ord with e | ⟨lit, s₂⟩ <;>
            simp only [hsel] at hstep <;> exact StepRes.noConfusion hstep
      · by_cases hc0 : (applyConflict s₁ cc).m.currentLevel = 0
        · rw [if_pos hc0] at hstep
          exact StepRes.noConfusion hstep
        · rw [if_neg hc0] at hstep
          rcases hUIP : applyExplainUIP ((applyConflict s₁ cc).m.len + 1) (applyConflict s₁ cc)
            with _ | s₃ <;> simp only [hUIP] at hstep
          · exact StepRes.noConfusion hstep
          · simp only [StepRes.next.injEq] at hstep
            rw [← hstep]
            exact conflictStep_searchInv V f0 s₁ s₃ cc hinv₁ hff hc0 hUIP
  · intro s' hstep
    unfold solveStep at hstep
    rcases hup : unitPropagate (s.vars.length + 1) s with _ | s₁ <;>
      simp only [hup] at hstep
    · exact StepRes.noConfusion hstep
    · have hinv₁ := unitPropagate_searchInv V f0 _ s s₁ hinv hup
      rcases hff : isFormulaFalse s₁.m s₁.f with _ | cc <;> simp only [hff] at hstep
      · by_cases hl : s₁.m.len = s₁.vars.length
        · rw [if_pos hl] at hstep
          exact StepRes.noConfusion hstep
        · rw [if_neg hl] at hstep
          rcases hsel : selectLiteral s₁ ord with e | ⟨lit, s₂⟩ <;>
            simp only [hsel] at hstep
          · exact StepRes.noConfusion hstep
          · simp only [StepRes.nextD.injEq] at hstep
            rw [← hstep]
            exact decisionStep_searchInv V f0 s₁ s₂ lit ord hinv₁ hff hl hord hsel
      · by_cases hc0 : (applyConflict s₁ cc).m.currentLevel = 0
        · rw [if_pos hc0] at hstep
          exact StepRes.noConfusion hstep
        · rw [if_neg hc0] at hstep
          rcases hUIP : applyExplainUIP ((applyConflict s₁ cc).m.len + 1) (applyConflict s₁ cc)
            with _ | s₃ <;> simp only [hUIP] at hstep <;> exact StepRes.noConfusion hstep
  · intro r s' hstep
    unfold solveStep at hstep
    rcases hup : unitPropagate (s.vars.length + 1) s with _ | s₁ <;>
      simp only [hup] at hstep
    · exact StepRes.noConfusion hstep
    · have hinv₁ := unitPropagate_searchInv V f0 _ s s₁ hinv hup
      rcases hff : isFormulaFalse s₁.m s₁.f with _ | cc <;> simp only [hff] at hstep
      · by_cases hl : s₁.m.len = s₁.vars.length
        · rw [if_pos hl] at hstep
          simp only [StepRes.done.injEq] at hstep
          obtain ⟨hr, hs'⟩ := hstep
          rw [← hs']
          exact ⟨hinv₁, fun _ => ⟨hff, hl⟩⟩
        · rw [if_neg hl] at hstep
          rcases hsel : selectLiteral s₁ ord with e | ⟨lit, s₂⟩ <;>
            simp only [hsel] at hstep <;> exact StepRes.noConfusion hstep
      · by_cases hc0 : (applyConflict s₁ cc).m.currentLevel = 0
        · rw [if_pos hc0] at hstep
          simp only [StepRes.done.injEq] at hstep
          obtain ⟨hr, hs'⟩ := hstep
          rw [← hs']
          refine ⟨searchInv_coreEq V f0 s₁ _ (applyConflict_coreEq s₁ cc) hinv₁, ?_⟩
          intro hrt
          rw [hrt] at hr
          exact Bool.noConfusion hr
        · rw [if_neg hc0] at hstep
          rcases hUIP : applyExplainUIP ((applyConflict s₁ cc).m.len + 1) (applyConflict s₁ cc)
            with _ | s₃ <;> simp only [hUIP] at hstep <;> exact StepRes.noConfusion hstep

/-- The solve loop preserves the search invariant; a Satisfied answer comes
with a conflict-free, complete assignment. -/
theorem solveLoop_searchInv (V : List Int) (f0 : Formula) :
    ∀ (fuel : Nat) (ords : List (List Int)) (s : Solver) (r : Bool) (s' : Solver),
      SearchInv V f0 s → (∀ o ∈ ords, o.Perm V) →
      solveLoop fuel ords s = some (r, s') →
      SearchInv V f0 s' ∧
      (r = true → isFormulaFalse s'.m s'.f = none ∧ s'.m.len = s'.vars.length) := by
  intro fuel
  induction fuel with
  | zero => intro ords s r s' _ _ h; exact Option.noConfusion h
  | succ n ih =>
      intro ords s r s' hinv hords h
      have hord : (ords.headD s.vars).Perm V := by
        rcases ords with _ | ⟨o, os⟩
        · show s.vars.Perm V
          rw [hinv.1]
        · exact hords o (List.mem_cons_self o os)
      unfold solveLoop at h
      rcases hstep : solveStep (ords.headD s.vars) s with ⟨r₀, s₀⟩ | s₀ | s₀ | _ <;>
        simp only [hstep] at h
      · simp only [Option.some.injEq, Prod.mk.injEq] at h
        obtain ⟨hr, hs⟩ := h
        subst hr; subst hs
        exact (solveStep_searchInv V f0 _ s hinv hord).2.2 _ _ hstep
      · exact ih ords s₀ r s' ((solveStep_searchInv V f0 _ s hinv hord).1 s₀ hstep) hords h
      · refine ih ords.tail s₀ r s'
          ((solveStep_searchInv V f0 _ s hinv hord).2.1 s₀ hstep) ?_ h
        intro o ho
        exact hords o (List.mem_of_mem_tail ho)
      · exact Option.noConfusion h

/-- **C2** (soundness).  Whenever `Solve` returns true on an ingested
formula, the trail held by the solver at return satisfies at least one
literal of every clause of the original formula (for every variable
iteration order the Go map may produce). -/
theorem c2_solve_sound (f0 : Formula) (ords : List (List Int)) (fuel : Nat) (s' : Solver)
    (hnz : ∀ c ∈ f0, ∀ l ∈ c, l ≠ 0)
    (hords : ∀ o ∈ ords, o.Perm (addFormula newSolver f0).vars)
    (hsolve : solve fuel ords (addFormula newSolver f0) = some (true, s')) :
    ∀ c ∈ f0, ∃ l ∈ c, s'.m.isSet l = true := by
  have hloop : solveLoop fuel ords (addFormula newSolver f0) = some (true, s') := by
    unfold solve at hsolve
    rw [if_neg (by intro hcon; exact hcon rfl)] at hsolve
    exact hsolve
  obtain ⟨hinv', hcond⟩ := solveLoop_searchInv (addFormula newSolver f0).vars f0
    fuel ords _ true s' (searchInv_init f0 hnz) hords hloop
  obtain ⟨hffnone, hlen⟩ := hcond rfl
  obtain ⟨hvars, hVnd, hVpos, hfm, hwf, htrV, hpref, _, _⟩ := hinv'
  intro c hc
  have hcf : c ∈ s'.f := by
    obtain ⟨t, ht⟩ := hpref
    rw [ht]
    exact List.mem_append_left t hc
  have hcnf : s'.m.clauseFalse c = false := (isFormulaFalse_none_iff _ _).mp hffnone c hcf
  obtain ⟨l, hl, hlf⟩ := clauseFalse_false_exists s'.m c hcnf
  obtain ⟨hl0, hlV⟩ := hfm c hcf l hl
  have hassigned := all_assigned (addFormula newSolver f0).vars s'.m hVnd hVpos hwf htrV
    (by rw [← hvars]; exact hlen) ((l.natAbs : Int)) hlV
  refine ⟨l, hl, ?_⟩
  have hlf' : s'.m.isSet (negate l) = false := hlf
  rcases hassigned with hA | hA
  · rcases Int.natAbs_eq l with he | he
    · rw [← he] at hA
      exact hA
    · have hneq : negate l = ((l.natAbs : Int)) := by
        simp only [negate]
        omega
      rw [← hneq] at hA
      rw [hA] at hlf'
      exact Bool.noConfusion hlf'
  · rcases Int.natAbs_eq l with he | he
    · have hneq : negate ((l.natAbs : Int)) = negate l := by rw [← he]
      rw [hneq, hlf'] at hA
      exact Bool.noConfusion hA
    · have hneq : negate ((l.natAbs : Int)) = l := by
        simp only [negate]
        omega
      rw [hneq] at hA
      exact hA

/-- Witness for C2: solving `[[4]]` returns true with the assignment
setting literal 4, which satisfies the single clause. -/
theorem c2_solve_sound_witness :
    ∃ l ∈ [(4 : Int)], exSat4.m.isSet l = true :=
  c2_solve_sound [[4]] [] 1 exSat4 (by decide)
    (fun o ho => absurd ho (List.not_mem_nil o)) (by decide)
    [4] (List.mem_singleton_self [4])

/-! ### Termination: basic bounds -/

theorem decCount_le_length (es : List TrailElem) : decCount es ≤ es.length :=
  List.length_filter_le _ es

theorem trail_len_le (V : List Int) (m : Trail) (_hVnd : V.Nodup) (hwf : TrailWF m)
    (hsub : ∀ e ∈ m.elems, ((e.lit.natAbs : Int)) ∈ V) : m.len ≤ V.length := by
  have hLnd : (m.elems.map (fun e => ((e.lit.natAbs : Int)))).Nodup :=
    nodup_cast_map m.elems hwf.1
  have hLsub : (m.elems.map (fun e => ((e.lit.natAbs : Int)))) ⊆ V := by
    intro x hx
    obtain ⟨e, he, hc⟩ := List.mem_map.mp hx
    rw [← hc]
    exact hsub e he
  have hle := (List.subperm_of_subset hLnd hLsub).length_le
  rw [List.length_map] at hle
  exact hle

/-- The propagation fuel `|vars| + 1` used by `solveStep` is always enough:
each round asserts a fresh variable and at most `|V|` can be assigned. -/
theorem unitPropagate_isSome (V : List Int) (f0 : Formula) :
    ∀ (fuel : Nat) (s : Solver), SearchInv V f0 s → V.length < fuel + s.m.len →
      ∃ s₁, unitPropagate fuel s = some s₁ := by
  intro fuel
  induction fuel with
  | zero =>
      intro s hinv hlt
      exfalso
      have := trail_len_le V s.m hinv.2.1 hinv.2.2.2.2.1 hinv.2.2.2.2.2.1
      omega
  | succ n ih =>
      intro s hinv hlt
      unfold unitPropagate
      rcases hfu : findUnit s.m s.f with _ | ⟨c, l⟩
      · exact ⟨s, rfl⟩
      · rcases hff : isFormulaFalse (propagateOne s c l).m (propagateOne s c l).f with _ | cc
        · simp only [hff]
          refine ih (propagateOne s c l) (propagateOne_searchInv V f0 s c l hinv hfu) ?_
          have hlen : (propagateOne s c l).m.len = s.m.len + 1 := rfl
          omega
        · simp only [hff]
          exact ⟨propagateOne s c l, rfl⟩

theorem muElems_cons (N : Nat) (e : TrailElem) (r : List TrailElem) :
    muElems N (e :: r) = (N + 1) ^ (N - decCount (e :: r)) + muElems N r := rfl

theorem muElems_lt_cons (N : Nat) (e : TrailElem) (r : List TrailElem) :
    muElems N r < muElems N (e :: r) := by
  rw [muElems_cons]
  have : 0 < (N + 1) ^ (N - decCount (e :: r)) := Nat.pos_pow_of_pos _ (by omega)
  omega

theorem muElems_le (N : Nat) (es : List TrailElem) :
    muElems N es ≤ es.length * (N + 1) ^ N := by
  induction es with
  | nil => simp [muElems]
  | cons e r ih =>
      rw [muElems_cons, List.length_cons]
      have h1 : (N + 1) ^ (N - decCount (e :: r)) ≤ (N + 1) ^ N :=
        Nat.pow_le_pow_right (by omega) (Nat.sub_le _ _)
      calc (N + 1) ^ (N - decCount (e :: r)) + muElems N r
          ≤ (N + 1) ^ N + r.length * (N + 1) ^ N := Nat.add_le_add h1 ih
        _ = (r.length + 1) * (N + 1) ^ N := by ring

theorem mu_lt_bound (N : Nat) (m : Trail) (hlen : m.len ≤ N) :
    mu N m < (N + 1) ^ (N + 1) := by
  have h1 : mu N m ≤ m.len * (N + 1) ^ N := muElems_le N m.elems
  have h2 : m.len * (N + 1) ^ N ≤ N * (N + 1) ^ N :=
    Nat.mul_le_mul_right _ hlen
  have h3 : (N + 1) ^ (N + 1) = N * (N + 1) ^ N + (N + 1) ^ N := by ring
  have h4 : 0 < (N + 1) ^ N := Nat.pos_pow_of_pos _ (by omega)
  omega

theorem unitPropagate_mu (N : Nat) :
    ∀ (fuel : Nat) (s s₁ : Solver), unitPropagate fuel s = some s₁ →
      mu N s.m ≤ mu N s₁.m := by
  intro fuel
  induction fuel with
  | zero => intro s s₁ h; exact Option.noConfusion h
  | succ n ih =>
      intro s s₁ h
      unfold unitPropagate at h
      rcases hfu : findUnit s.m s.f with _ | ⟨c, l⟩ <;> simp only [hfu] at h
      · simp only [Option.some.injEq] at h
        rw [← h]
      · have hstep : mu N s.m ≤ mu N (propagateOne s c l).m :=
          le_of_lt (muElems_lt_cons N ⟨l, false⟩ s.m.elems)
        rcases hff : isFormulaFalse (propagateOne s c l).m (propagateOne s c l).f with _ | cc <;>
          simp only [hff] at h
        · exact le_trans hstep (ih _ _ h)
        · simp only [Option.some.injEq] at h
          rw [← h]
          exact hstep

/-- Every entry the trim to level `b` discards sits at a level above `b`,
so the discarded prefix weighs at most `(length) · (N+1)^(N-(b+1))`. -/
theorem muElems_trim_le (N b : Nat) :
    ∀ es : List TrailElem, b < decCount es →
      muElems N es ≤ (es.length - (trimElemsToLevel es b).length) * (N + 1) ^ (N - (b + 1)) +
        muElems N (trimElemsToLevel es b) := by
  intro es
  induction es with
  | nil => intro h; simp [decCount] at h
  | cons e r ih =>
      intro h
      have htr : trimElemsToLevel (e :: r) b = trimElemsToLevel r b :=
        trim_cons_of_gt e r b h
      have hterm : (N + 1) ^ (N - decCount (e :: r)) ≤ (N + 1) ^ (N - (b + 1)) :=
        Nat.pow_le_pow_right (by omega) (Nat.sub_le_sub_left h N)
      rw [htr, muElems_cons]
      by_cases hb : b < decCount r
      · have hih := ih hb
        obtain ⟨pre₀, hpre₀⟩ := trim_suffix r b
        have hlen : (trimElemsToLevel r b).length ≤ r.length := by
          have := congrArg List.length hpre₀
          rw [List.length_append] at this
          omega
        have hsplit : (e :: r).length - (trimElemsToLevel r b).length =
            (r.length - (trimElemsToLevel r b).length) + 1 := by
          rw [List.length_cons]
          omega
        rw [hsplit]
        calc (N + 1) ^ (N - decCount (e :: r)) + muElems N r
            ≤ (N + 1) ^ (N - (b + 1)) +
              ((r.length - (trimElemsToLevel r b).length) * (N + 1) ^ (N - (b + 1)) +
                muElems N (trimElemsToLevel r b)) := Nat.add_le_add hterm hih
          _ = ((r.length - (trimElemsToLevel r b).length) + 1) * (N + 1) ^ (N - (b + 1)) +
              muElems N (trimElemsToLevel r b) := by ring
      · have hble : decCount r ≤ b := by omega
        have htr2 : trimElemsToLevel r b = r := trim_eq_of_le r b hble
        rw [htr2]
        have hone : (e :: r).length - r.length = 1 := by
          rw [List.length_cons]
          omega
        rw [hone, Nat.one_mul]
        exact Nat.add_le_add_right hterm _

/-- Backjumping to level `b` and asserting one literal there strictly
increases the measure: the fresh level-`b` entry outweighs every discarded
higher-level entry. -/
theorem mu_backjump_increase (N b : Nat) (es : List TrailElem) (x : Int)
    (hlen : es.length ≤ N) (hb : b < decCount es) :
    muElems N es < muElems N (⟨x, false⟩ :: trimElemsToLevel es b) := by
  have hdc : decCount (⟨x, false⟩ :: trimElemsToLevel es b) = b := by
    rw [decCount_cons]
    have := decCount_trim_eq es b (le_of_lt hb)
    simp only [Bool.false_eq_true, if_false]
    omega
  have hbN : b + 1 ≤ N := by
    have := decCount_le_length es
    omega
  have hexp : N - b = (N - (b + 1)) + 1 := by omega
  have hpow : (N + 1) ^ (N - b) = (N + 1) ^ (N - (b + 1)) * (N + 1) := by
    rw [hexp, pow_succ]
  have hk : es.length - (trimElemsToLevel es b).length ≤ N :=
    le_trans (Nat.sub_le _ _) hlen
  have hmain := muElems_trim_le N b es hb
  rw [muElems_cons, hdc, hpow]
  have hmul : (es.length - (trimElemsToLevel es b).length) * (N + 1) ^ (N - (b + 1)) ≤
      N * (N + 1) ^ (N - (b + 1)) := Nat.mul_le_mul_right _ hk
  have hlast : N * (N + 1) ^ (N - (b + 1)) < (N + 1) ^ (N - (b + 1)) * (N + 1) := by
    have hP : 0 < (N + 1) ^ (N - (b + 1)) := Nat.pos_pow_of_pos _ (by omega)
    have he : (N + 1) ^ (N - (b + 1)) * (N + 1) =
        N * (N + 1) ^ (N - (b + 1)) + (N + 1) ^ (N - (b + 1)) := by ring
    omega
  omega

/-! ### Termination: reason coherence -/

theorem lookupReason_cons_self (rm : List (Int × Clause)) (y : Int) (c : Clause) :
    lookupReason ((y, c) :: rm) y = some c := by
  unfold lookupReason
  rw [List.find?_cons_of_pos]
  simp

theorem lookupReason_cons_ne (rm : List (Int × Clause)) (y : Int) (c : Clause) (x : Int)
    (h : y ≠ x) : lookupReason ((y, c) :: rm) x = lookupReason rm x := by
  unfold lookupReason
  rw [List.find?_cons_of_neg]
  simp [h]

theorem reasonWF_empty (m : Trail) (rm : List (Int × Clause)) (h : m.elems = []) :
    ReasonWF m rm := by
  intro pre e suf hdec _
  rw [h] at hdec
  have := congrArg List.length hdec
  simp at this
  omega

/-- Asserting a literal whose clause had every other literal already
falsified, and recording that clause as its reason, keeps reasons coherent. -/
theorem reasonWF_assert (m : Trail) (rm : List (Int × Clause)) (c : Clause) (l : Int)
    (hrw : ReasonWF m rm) (hundef : m.isUndef l = true)
    (hothers : ∀ x ∈ c, x ≠ l → m.litFalse x = true) :
    ReasonWF (m.assert l false) ((l, c) :: rm) := by
  have hns : m.isSet l = false := by
    unfold Trail.isUndef at hundef
    simp only [Bool.and_eq_true, Bool.not_eq_true'] at hundef
    exact hundef.1
  intro pre e suf hdec hd
  have hdec' : (⟨l, false⟩ : TrailElem) :: m.elems = pre ++ e :: suf := hdec
  rcases pre with _ | ⟨p0, pre'⟩
  · simp only [List.nil_append, List.cons.injEq] at hdec'
    obtain ⟨he, hsuf⟩ := hdec'
    rw [← he]
    refine ⟨c, lookupReason_cons_self rm l c, ?_⟩
    intro x hx hxl
    have hxf : m.isSet (negate x) = true := hothers x hx hxl
    obtain ⟨e', he', hlit⟩ := (isSet_iff_exists_mem m (negate x)).mp hxf
    exact ⟨e', by rw [← hsuf]; exact he', hlit⟩
  · simp only [List.cons_append, List.cons.injEq] at hdec'
    obtain ⟨hp0, hrest⟩ := hdec'
    have hemem : e ∈ m.elems := by
      rw [hrest]
      exact List.mem_append_right pre' (List.mem_cons_self e suf)
    have hne : e.lit ≠ l := by
      intro hq
      have hset : m.isSet l = true := (isSet_iff_exists_mem m l).mpr ⟨e, hemem, hq⟩
      rw [hns] at hset
      exact Bool.noConfusion hset
    obtain ⟨creason, hlook, hall⟩ := hrw pre' e suf hrest hd
    refine ⟨creason, ?_, hall⟩
    rw [lookupReason_cons_ne rm l c e.lit (fun hq => hne hq.symm)]
    exact hlook

/-- A decision assertion needs no reason and keeps reasons coherent. -/
theorem reasonWF_assert_decision (m : Trail) (rm : List (Int × Clause)) (l : Int)
    (hrw : ReasonWF m rm) : ReasonWF (m.assert l true) rm := by
  intro pre e suf hdec hd
  have hdec' : (⟨l, true⟩ : TrailElem) :: m.elems = pre ++ e :: suf := hdec
  rcases pre with _ | ⟨p0, pre'⟩
  · simp only [List.nil_append, List.cons.injEq] at hdec'
    obtain ⟨he, _⟩ := hdec'
    rw [← he] at hd
    exact Bool.noConfusion hd
  · simp only [List.cons_append, List.cons.injEq] at hdec'
    exact hrw pre' e suf hdec'.2 hd

/-- Trimming the trail keeps reasons coherent: surviving entries keep their
entire older segment. -/
theorem reasonWF_trim (m : Trail) (rm : List (Int × Clause)) (b : Nat)
    (hrw : ReasonWF m rm) : ReasonWF (m.trimToLevel b) rm := by
  intro pre e suf hdec hd
  obtain ⟨dropped, hdrop⟩ := trim_suffix m.elems b
  refine hrw (dropped ++ pre) e suf ?_ hd
  rw [hdrop]
  have hdec' : trimElemsToLevel m.elems b = pre ++ e :: suf := hdec
  rw [hdec', List.append_assoc]

theorem propagateOne_reasonWF (s : Solver) (c : Clause) (l : Int)
    (hrw : ReasonWF s.m s.reasonMap) (hfu : findUnit s.m s.f = some (c, l)) :
    ReasonWF (propagateOne s c l).m (propagateOne s c l).reasonMap := by
  obtain ⟨hcf, hlc, hunit⟩ := findUnit_some_spec s.m s.f c l hfu
  unfold Trail.isUnit at hunit
  simp only [Bool.and_eq_true] at hunit
  have hothers : ∀ x ∈ c, x ≠ l → s.m.litFalse x = true := by
    intro x hx hxl
    have hx2 := List.all_eq_true.mp hunit.1 x hx
    simp only [Bool.or_eq_true, beq_iff_eq] at hx2
    rcases hx2 with h | h
    · exact absurd h hxl
    · exact h
  exact reasonWF_assert s.m s.reasonMap c l hrw hunit.2 hothers

theorem unitPropagate_reasonWF :
    ∀ (fuel : Nat) (s s' : Solver), ReasonWF s.m s.reasonMap →
      unitPropagate fuel s = some s' → ReasonWF s'.m s'.reasonMap := by
  intro fuel
  induction fuel with
  | zero => intro s s' _ h; exact Option.noConfusion h
  | succ n ih =>
      intro s s' hrw h
      unfold unitPropagate at h
      rcases hfu : findUnit s.m s.f with _ | ⟨c, l⟩ <;> simp only [hfu] at h
      · simp only [Option.some.injEq] at h
        rw [← h]
        exact hrw
      · have hrw' := propagateOne_reasonWF s c l hrw hfu
        rcases hff : isFormulaFalse (propagateOne s c l).m (propagateOne s c l).f with _ | cc <;>
          simp only [hff] at h
        · exact ih _ _ hrw' h
        · simp only [Option.some.injEq] at h
          rw [← h]
          exact hrw'

/-! ### Termination: the first-UIP loop -/

theorem removeConflictLiteral_cH (s : Solver) (l : Int) :
    (removeConflictLiteral s l).cH = s.cH.erase l := by
  unfold removeConflictLiteral
  split <;> rfl

theorem addConflictLiteral_cH_src (t : Solver) (a x : Int)
    (h : x ∈ (addConflictLiteral t a).cH) : x = a ∨ x ∈ t.cH := by
  unfold addConflictLiteral at h
  split at h
  · exact Or.inr h
  · split at h
    · split at h
      · rcases List.mem_cons.mp h with h | h
        · exact Or.inl h
        · exact Or.inr h
      · rcases List.mem_cons.mp h with h | h
        · exact Or.inl h
        · exact Or.inr h
    · exact Or.inr h

theorem foldl_explainAdd_mem_src (lit : Int) :
    ∀ (ls : List Int) (t : Solver) (x : Int),
      x ∈ (ls.foldl (fun t l => if l = lit then t else addConflictLiteral t l) t).cH →
      x ∈ t.cH ∨ (x ∈ ls ∧ x ≠ lit) := by
  intro ls
  induction ls with
  | nil => intro t x h; exact Or.inl h
  | cons a as ih =>
      intro t x h
      rw [List.foldl_cons] at h
      by_cases ha : a = lit
      · rw [if_pos ha] at h
        rcases ih t x h with h' | ⟨h', hne⟩
        · exact Or.inl h'
        · exact Or.inr ⟨List.mem_cons_of_mem a h', hne⟩
      · rw [if_neg ha] at h
        rcases ih (addConflictLiteral t a) x h with h' | ⟨h', hne⟩
        · rcases addConflictLiteral_cH_src t a x h' with h'' | h''
          · refine Or.inr ⟨by rw [h'']; exact List.mem_cons_self a as, ?_⟩
            rw [h'']
            exact ha
          · exact Or.inl h''
        · exact Or.inr ⟨List.mem_cons_of_mem a h', hne⟩

/-- Source of every H-literal after one resolution step: it was already in
H (minus the resolved literal) or it comes from the reason clause. -/
theorem applyExplain_cH_src (s : Solver) (creason : Clause)
    (hlook : lookupReason s.reasonMap s.cL = some creason) (x : Int)
    (hx : x ∈ (applyExplain s s.cL).cH) :
    x ∈ s.cH.erase (negate s.cL) ∨ (x ∈ creason ∧ x ≠ s.cL) := by
  have hset : (applyExplain s s.cL).cH =
      (resolveReason (removeConflictLiteral s (negate s.cL)) s.cL).cH := rfl
  rw [hset] at hx
  have hrm : (removeConflictLiteral s (negate s.cL)).reasonMap = s.reasonMap :=
    (removeConflictLiteral_coreEq s (negate s.cL)).2.2.2.1
  unfold resolveReason at hx
  rw [hrm, hlook] at hx
  simp only [Option.getD_some] at hx
  have hsrc := foldl_explainAdd_mem_src s.cL creason _ x hx
  rw [removeConflictLiteral_cH] at hsrc
  exact hsrc

/-- If one clean decomposition of a list puts the marked element at `a` and
another puts it at `c`, with everything before and including `a` unmarked,
then `c` sits strictly deeper. -/
theorem decomp_shrink (p : TrailElem → Prop) :
    ∀ (A : List TrailElem) (a : TrailElem) (B C : List TrailElem) (c : TrailElem)
      (D : List TrailElem),
      A ++ a :: B = C ++ c :: D →
      (∀ x ∈ A, ¬ p x) → ¬ p a → (∀ x ∈ C, ¬ p x) → p c →
      D.length < B.length := by
  intro A
  induction A with
  | nil =>
      intro a B C c D heq hA ha hC hc
      rcases C with _ | ⟨c0, C'⟩
      · simp only [List.nil_append, List.cons.injEq] at heq
        rw [heq.1] at ha
        exact absurd hc ha
      · simp only [List.nil_append, List.cons_append, List.cons.injEq] at heq
        have := congrArg List.length heq.2
        simp only [List.length_append, List.length_cons] at this
        omega
  | cons a0 A' ih =>
      intro a B C c D heq hA ha hC hc
      rcases C with _ | ⟨c0, C'⟩
      · simp only [List.nil_append, List.cons_append, List.cons.injEq] at heq
        have := hA a0 (List.mem_cons_self a0 A')
        rw [heq.1] at this
        exact absurd hc this
      · simp only [List.cons_append, List.cons.injEq] at heq
        exact ih a B C' c D heq.2 (fun x hx => hA x (List.mem_cons_of_mem a0 hx)) ha
          (fun x hx => hC x (List.mem_cons_of_mem c0 hx)) hc

theorem countAtCurrent_two_exists (m : Trail) (cH : List Int) (hnd : cH.Nodup)
    (h : 2 ≤ countAtCurrent m cH) :
    ∃ l₁ l₂, l₁ ∈ cH ∧ l₂ ∈ cH ∧ l₁ ≠ l₂ ∧
      m.level (negate l₁) = m.currentLevel ∧ m.level (negate l₂) = m.currentLevel := by
  unfold countAtCurrent at h
  have hndF : (cH.filter (fun l => m.level (negate l) = m.currentLevel)).Nodup :=
    List.Nodup.filter _ hnd
  rcases hFd : cH.filter (fun l => m.level (negate l) = m.currentLevel) with _ | ⟨a, _ | ⟨b, tl⟩⟩
  · rw [hFd] at h
    simp at h
  · rw [hFd] at h
    simp at h
  · rw [hFd] at hndF
    have hab : a ≠ b := by
      rw [List.nodup_cons] at hndF
      intro hq
      exact hndF.1 (by rw [hq]; exact List.mem_cons_self b tl)
    have ha : a ∈ cH.filter (fun l => m.level (negate l) = m.currentLevel) := by
      rw [hFd]
      exact List.mem_cons_self a _
    have hb : b ∈ cH.filter (fun l => m.level (negate l) = m.currentLevel) := by
      rw [hFd]
      exact List.mem_cons_of_mem a (List.mem_cons_self b tl)
    obtain ⟨ha1, ha2⟩ := List.mem_filter.mp ha
    obtain ⟨hb1, hb2⟩ := List.mem_filter.mp hb
    simp only [decide_eq_true_eq] at ha2 hb2
    exact ⟨a, b, ha1, hb1, hab, ha2, hb2⟩

/-- When at least two H-literals sit at the current level, the most
recently asserted one cannot be the level's decision: the decision is the
level's oldest entry, yet another H-negation lies above it. -/
theorem lastLit_not_decision (m : Trail) (cH : List Int) (x : Int) (d : Bool)
    (pre suf : List TrailElem)
    (hwf : TrailWF m) (hpos : ∀ l ∈ cH, 0 < m.level (negate l)) (hnd : cH.Nodup)
    (hdec : m.elems = pre ++ ⟨x, d⟩ :: suf)
    (hpre : ∀ e ∈ pre, negate e.lit ∉ cH)
    (hcnt : 2 ≤ countAtCurrent m cH) :
    d = false := by
  cases d
  · rfl
  · exfalso
    obtain ⟨l₁, l₂, hl₁, hl₂, hne, hlev₁, hlev₂⟩ := countAtCurrent_two_exists m cH hnd hcnt
    have hpick : ∃ l, l ∈ cH ∧ m.level (negate l) = m.currentLevel ∧ negate l ≠ x := by
      by_cases h1 : negate l₁ = x
      · refine ⟨l₂, hl₂, hlev₂, ?_⟩
        intro h2
        apply hne
        have h12 : negate l₁ = negate l₂ := by rw [h1, h2]
        simp only [negate, neg_inj] at h12
        exact h12
      · exact ⟨l₁, hl₁, hlev₁, h1⟩
    obtain ⟨l, hlH, hlev, hlx⟩ := hpick
    have hp : 0 < m.level (negate l) := hpos l hlH
    obtain ⟨d', he'⟩ := level_pos_mem_mk m.elems (negate l) hp
    rw [hdec] at he'
    rcases List.mem_append.mp he' with h | h
    · refine hpre ⟨negate l, d'⟩ h ?_
      show negate (negate l) ∈ cH
      rw [negate_negate]
      exact hlH
    · rcases List.mem_cons.mp h with h | h
      · exact hlx (congrArg TrailElem.lit h)
      · obtain ⟨s1, s2, hsuf⟩ := List.append_of_mem h
        have hdec2 : m.elems = (pre ++ ⟨x, true⟩ :: s1) ++ ⟨negate l, d'⟩ :: s2 := by
          rw [hdec, hsuf, List.append_assoc, List.cons_append]
        have hlev2 : m.level (negate l) = decCount (⟨negate l, d'⟩ :: s2) :=
          trailWF_level_decomp m _ s2 d' (negate l) hwf hdec2
        have hcur : m.currentLevel = decCount pre + decCount ((⟨x, true⟩ : TrailElem) :: suf) := by
          show decCount m.elems = _
          rw [hdec, decCount_append]
        have h1 : decCount ((⟨x, true⟩ : TrailElem) :: suf) = decCount suf + 1 := by
          rw [decCount_cons]
          simp only [if_true]
          omega
        have h2 : decCount suf = decCount s1 + decCount (⟨negate l, d'⟩ :: s2) := by
          rw [hsuf, decCount_append]
        rw [hlev] at hlev2
        omega

/-- The heart of the UIP termination argument: one resolution step moves
the most recently asserted H-negation strictly deeper into the trail. -/
theorem uip_step_decomp (s : Solver)
    (hwf : TrailWF s.m) (hrw : ReasonWF s.m s.reasonMap)
    (hinv : AnalysisInv s) (hL : IsLastLit s.m s.cH s.cL) (hN2 : 2 ≤ s.cN)
    (pre : List TrailElem) (d : Bool) (suf : List TrailElem)
    (hdec : s.m.elems = pre ++ ⟨s.cL, d⟩ :: suf)
    (hpre : ∀ e ∈ pre, negate e.lit ∉ s.cH) :
    ∀ pre₂ d₂ suf₂, s.m.elems =
        pre₂ ++ ⟨(applyExplain s s.cL).cL, d₂⟩ :: suf₂ →
      (∀ e ∈ pre₂, negate e.lit ∉ (applyExplain s s.cL).cH) →
      suf₂.length < suf.length := by
  have hNc := hinv.2.2.2.2.2
  have hcnt2 : 2 ≤ countAtCurrent s.m s.cH := by omega
  have hd : d = false :=
    lastLit_not_decision s.m s.cH s.cL d pre suf hwf hinv.2.2.1 hinv.1 hdec hpre hcnt2
  subst hd
  obtain ⟨creason, hlook, hreach⟩ := hrw pre ⟨s.cL, false⟩ suf hdec rfl
  obtain ⟨hinv', hL', hN'⟩ := applyExplain_step s hwf hinv hL hN2
  have hclean : ∀ e ∈ pre ++ [(⟨s.cL, false⟩ : TrailElem)],
      negate e.lit ∉ (applyExplain s s.cL).cH := by
    intro e he hmem
    have hsrc := applyExplain_cH_src s creason hlook (negate e.lit) hmem
    rcases List.mem_append.mp he with hp | hp
    · rcases hsrc with h | ⟨h, hne⟩
      · exact hpre e hp (List.mem_of_mem_erase h)
      · obtain ⟨e', he', hlit⟩ := hreach (negate e.lit) h hne
        rw [negate_negate] at hlit
        have hnodup := hwf.1
        rw [hdec, List.map_append, List.nodup_append] at hnodup
        refine hnodup.2.2 (List.mem_map_of_mem _ hp) ?_
        rw [List.map_cons]
        refine List.mem_cons_of_mem _ ?_
        refine List.mem_map.mpr ⟨e', he', ?_⟩
        rw [hlit]
    · rw [List.mem_singleton] at hp
      subst hp
      rcases hsrc with h | ⟨h, hne⟩
      · have hni := (List.Nodup.mem_erase_iff hinv.1).mp h
        exact hni.1 rfl
      · obtain ⟨e', he', hlit⟩ := hreach (negate s.cL) h hne
        rw [negate_negate] at hlit
        have h2 := (nodup_mid (fun e => e.lit.natAbs) pre suf ⟨s.cL, false⟩
          (by rw [← hdec]; exact hwf.1)).2 e' he'
        rw [hlit] at h2
        exact h2 rfl
  intro pre₂ d₂ suf₂ hdec₂ hpre₂
  have hmatch : negate (applyExplain s s.cL).cL ∈ (applyExplain s s.cL).cH :=
    (lastAsserted_decomp _ _ _ hL').1
  refine decomp_shrink (fun e => negate e.lit ∈ (applyExplain s s.cL).cH) pre ⟨s.cL, false⟩ suf
    pre₂ ⟨(applyExplain s s.cL).cL, d₂⟩ suf₂ ?_ ?_ ?_ ?_ ?_
  · rw [← hdec, ← hdec₂]
  · intro x hx
    exact hclean x (List.mem_append_left _ hx)
  · exact hclean ⟨s.cL, false⟩ (List.mem_append_right _ (List.mem_singleton_self _))
  · exact hpre₂
  · exact hmatch

/-- The conflict-analysis fuel `trail length + 1` used by `solveStep` is
always enough on coherent states: each resolution step moves the resolved
literal strictly deeper into a trail of fixed length. -/
theorem applyExplainUIP_isSome :
    ∀ (fuel : Nat) (s : Solver), TrailWF s.m → ReasonWF s.m s.reasonMap →
      AnalysisInv s → IsLastLit s.m s.cH s.cL → 1 ≤ s.cN →
      (∀ pre d suf, s.m.elems = pre ++ ⟨s.cL, d⟩ :: suf →
        (∀ e ∈ pre, negate e.lit ∉ s.cH) → suf.length < fuel) →
      ∃ s', applyExplainUIP fuel s = some s' := by
  intro fuel
  induction fuel with
  | zero =>
      intro s hwf hrw hinv hL hN hbound
      exfalso
      obtain ⟨hneg, pre, d, suf, hdec, hpre⟩ := lastAsserted_decomp s.m.elems s.cH s.cL hL
      exact absurd (hbound pre d suf hdec hpre) (by omega)
  | succ n ih =>
      intro s hwf hrw hinv hL hN hbound
      unfold applyExplainUIP
      by_cases hN1 : s.cN ≠ 1
      · rw [if_pos hN1]
        have hN2 : 2 ≤ s.cN := by omega
        obtain ⟨hinv', hL', hN'⟩ := applyExplain_step s hwf hinv hL hN2
        have hm' : (applyExplain s s.cL).m = s.m := (applyExplain_coreEq s s.cL).2.2.1
        have hrm' : (applyExplain s s.cL).reasonMap = s.reasonMap :=
          (applyExplain_coreEq s s.cL).2.2.2.1
        obtain ⟨hneg, pre, d, suf, hdec, hpre⟩ := lastAsserted_decomp s.m.elems s.cH s.cL hL
        refine ih (applyExplain s s.cL) (by rw [hm']; exact hwf)
          (by rw [hm', hrm']; exact hrw) hinv' hL' hN' ?_
        intro pre₂ d₂ suf₂ hdec₂ hpre₂
        have hdec₂' : s.m.elems = pre₂ ++ ⟨(applyExplain s s.cL).cL, d₂⟩ :: suf₂ := by
          rw [← hm']
          exact hdec₂
        have hshrink := uip_step_decomp s hwf hrw hinv hL hN2 pre d suf hdec hpre
          pre₂ d₂ suf₂ hdec₂' hpre₂
        have hb := hbound pre d suf hdec hpre
        omega
      · rw [if_neg hN1]
        exact ⟨_, rfl⟩

/-! ### Termination: one solve iteration -/

theorem conflict_entry (V : List Int) (f0 : Formula) (s₁ : Solver) (cc : Clause)
    (hinv : SearchInv V f0 s₁)
    (hcc : isFormulaFalse s₁.m s₁.f = some cc)
    (hcur1 : 1 ≤ s₁.m.currentLevel) :
    ∃ l ∈ cc, 0 < s₁.m.level (negate l) ∧ s₁.m.level (negate l) = s₁.m.currentLevel := by
  obtain ⟨hvars, hVnd, hVpos, hf, hwf, htrV, hpref, hinv1, hdl⟩ := hinv
  obtain ⟨hccf, hccfalse⟩ := isFormulaFalse_some_spec s₁.m s₁.f cc hcc
  have hnone := hinv1 (s₁.m.currentLevel - 1) (by omega)
  have hccnf : (s₁.m.trimToLevel (s₁.m.currentLevel - 1)).clauseFalse cc = false :=
    (isFormulaFalse_none_iff _ _).mp hnone cc hccf
  obtain ⟨l₀, hl₀c, hl₀f⟩ := clauseFalse_false_exists _ cc hccnf
  have hl₀m : s₁.m.litFalse l₀ = true := clauseFalse_forall s₁.m cc hccfalse l₀ hl₀c
  have hlev0 : s₁.m.level (negate l₀) = s₁.m.currentLevel := by
    have hle : s₁.m.level (negate l₀) ≤ s₁.m.currentLevel :=
      levelInElems_le_decCount s₁.m.elems (negate l₀)
    by_contra hne
    have hle' : s₁.m.level (negate l₀) ≤ s₁.m.currentLevel - 1 := by omega
    have hset := isSet_trim_of_level_le s₁.m (negate l₀) (s₁.m.currentLevel - 1) hwf hl₀m hle'
    have hl₀f' : (s₁.m.trimToLevel (s₁.m.currentLevel - 1)).isSet (negate l₀) = false := hl₀f
    rw [hset] at hl₀f'
    exact Bool.noConfusion hl₀f'
  exact ⟨l₀, hl₀c, by omega, hlev0⟩

/-- Handling a conflict keeps reasons coherent — the learned clause is a
valid reason for ¬L on the truncated trail — and strictly increases the
measure: the fresh low-level assertion outweighs everything discarded. -/
theorem conflictStep_reasonWF_mu (V : List Int) (f0 : Formula) (s₁ s₃ : Solver) (cc : Clause)
    (hinv : SearchInv V f0 s₁) (hrw : ReasonWF s₁.m s₁.reasonMap)
    (hcc : isFormulaFalse s₁.m s₁.f = some cc)
    (hlev : (applyConflict s₁ cc).m.currentLevel ≠ 0)
    (hUIP : applyExplainUIP ((applyConflict s₁ cc).m.len + 1) (applyConflict s₁ cc) = some s₃) :
    ReasonWF (applyBackjump (if s₃.c.length > 1 then { s₃ with f := s₃.f ++ [s₃.c] } else s₃)).m
      (applyBackjump
        (if s₃.c.length > 1 then { s₃ with f := s₃.f ++ [s₃.c] } else s₃)).reasonMap ∧
    mu V.length s₁.m <
      mu V.length
        (applyBackjump (if s₃.c.length > 1 then { s₃ with f := s₃.f ++ [s₃.c] } else s₃)).m := by
  have hm2 : (applyConflict s₁ cc).m = s₁.m := (applyConflict_coreEq s₁ cc).2.2.1
  have hcur1 : 1 ≤ s₁.m.currentLevel := by
    rw [hm2] at hlev
    omega
  have hwf := hinv.2.2.2.2.1
  have hex := conflict_entry V f0 s₁ cc hinv hcc hcur1
  obtain ⟨hainv, haL, haN⟩ := applyConflict_analysis s₁ cc hex
  obtain ⟨hinv₃, hL₃, hN₃⟩ := applyExplainUIP_inv _ _ s₃
    (by rw [hm2]; exact hwf) hainv haL (by omega) hUIP
  have hcore₃ := applyExplainUIP_coreEq _ _ _ hUIP
  have hm3 : s₃.m = s₁.m := by rw [hcore₃.2.2.1, hm2]
  have hrm3 : s₃.reasonMap = s₁.reasonMap := by
    rw [hcore₃.2.2.2.1, (applyConflict_coreEq s₁ cc).2.2.2.1]
  have hshape := (applyExplainUIP_c_shape _ _ _ hUIP).1
  set s₄ := if s₃.c.length > 1 then { s₃ with f := s₃.f ++ [s₃.c] } else s₃ with hs₄
  have h4 : s₄.m = s₃.m ∧ s₄.cH = s₃.cH ∧ s₄.cP = s₃.cP ∧ s₄.cL = s₃.cL ∧
      s₄.cN = s₃.cN ∧ s₄.c = s₃.c ∧ s₄.reasonMap = s₃.reasonMap := by
    rw [hs₄]
    by_cases hlen : s₃.c.length > 1
    · rw [if_pos hlen]
      exact ⟨rfl, rfl, rfl, rfl, rfl, rfl, rfl⟩
    · rw [if_neg hlen]
      exact ⟨rfl, rfl, rfl, rfl, rfl, rfl, rfl⟩
  have hainv₄ : AnalysisInv s₄ :=
    analysisInv_transport s₃ s₄ h4.1 h4.2.1 h4.2.2.1 h4.2.2.2.2.1 hinv₃
  have hL₄ : IsLastLit s₄.m s₄.cH s₄.cL :=
    isLastLit_transport s₃ s₄ h4.1 h4.2.1 h4.2.2.2.1 hL₃
  have hN₄ : s₄.cN = 1 := by
    rw [h4.2.2.2.2.1]
    exact hN₃
  have hc₄ : s₄.c = s₄.cP ++ [negate s₄.cL] := by
    rw [h4.2.2.2.2.2.1, h4.2.2.1, h4.2.2.2.1]
    exact hshape
  have hwf₄ : TrailWF s₄.m := by
    rw [h4.1, hm3]
    exact hwf
  obtain ⟨hble, hP0, hPex, hjlt, htrail, hreason, hunit⟩ :=
    backjump_spec s₄ hwf₄ hainv₄ hL₄ hN₄ hc₄
  have hm41 : s₄.m = s₁.m := by rw [h4.1, hm3]
  have hrm41 : s₄.reasonMap = s₁.reasonMap := by rw [h4.2.2.2.2.2.2, hrm3]
  constructor
  · have hrwtrim : ReasonWF (s₄.m.trimToLevel (backjumpLevel s₄)) s₄.reasonMap := by
      rw [hm41, hrm41]
      exact reasonWF_trim s₁.m s₁.reasonMap _ hrw
    have hundefL : (s₄.m.trimToLevel (backjumpLevel s₄)).isUndef (negate s₄.cL) = true := by
      have h2 := hunit
      unfold Trail.isUnit at h2
      simp only [Bool.and_eq_true] at h2
      exact h2.2
    have hothers : ∀ x ∈ s₄.c, x ≠ negate s₄.cL →
        (s₄.m.trimToLevel (backjumpLevel s₄)).litFalse x = true := by
      have h2 := hunit
      unfold Trail.isUnit at h2
      simp only [Bool.and_eq_true] at h2
      intro x hx hxne
      have hx2 := List.all_eq_true.mp h2.1 x hx
      simp only [Bool.or_eq_true, beq_iff_eq] at hx2
      rcases hx2 with h | h
      · exact absurd h hxne
      · exact h
    exact reasonWF_assert (s₄.m.trimToLevel (backjumpLevel s₄)) s₄.reasonMap s₄.c
      (negate s₄.cL) hrwtrim hundefL hothers
  · have hlen1 : s₁.m.elems.length ≤ V.length :=
      trail_len_le V s₁.m hinv.2.1 hinv.2.2.2.2.1 hinv.2.2.2.2.2.1
    have hblt : backjumpLevel s₄ < decCount s₁.m.elems := by
      have hc : s₄.m.currentLevel = decCount s₁.m.elems := by rw [hm41]; rfl
      omega
    have hinc := mu_backjump_increase V.length (backjumpLevel s₄) s₁.m.elems
      (negate s₄.cL) hlen1 hblt
    have hsh : (applyBackjump s₄).m.elems =
        (⟨negate s₄.cL, false⟩ : TrailElem) ::
          trimElemsToLevel s₁.m.elems (backjumpLevel s₄) := by
      rw [htrail, hm41]
      rfl
    show mu V.length s₁.m < mu V.length (applyBackjump s₄).m
    unfold mu
    rw [hsh]
    exact hinc

theorem selectLiteral_ok_default (s : Solver) (order : List Int)
    (hdl : s.decideLiterals = []) :
    ∃ lit, selectLiteral s order = Except.ok (lit, s) := by
  unfold selectLiteral
  simp only [hdl]
  rcases hf : List.find? (fun raw => !(takenVars s).contains raw) order with _ | raw <;>
    simp only [hf]
  · exact ⟨0, rfl⟩
  · exact ⟨raw, rfl⟩

/-- One solve iteration on a coherent state never hits the fuel/panic
escapes, and any continuation strictly increases the measure. -/
theorem solveStep_term (V : List Int) (f0 : Formula) (ord : List Int) (s : Solver)
    (hinv : SolveInv V f0 s) (hord : ord.Perm V) :
    (∀ s', solveStep ord s = .next s' →
      SolveInv V f0 s' ∧ mu V.length s.m < mu V.length s'.m) ∧
    (∀ s', solveStep ord s = .nextD s' →
      SolveInv V f0 s' ∧ mu V.length s.m < mu V.length s'.m) ∧
    solveStep ord s ≠ .fail := by
  obtain ⟨hsi, hrw⟩ := hinv
  obtain ⟨s₁, hup⟩ : ∃ s₁, unitPropagate (s.vars.length + 1) s = some s₁ := by
    refine unitPropagate_isSome V f0 (s.vars.length + 1) s hsi ?_
    have hv : s.vars = V := hsi.1
    rw [hv]
    omega
  have hsi₁ := unitPropagate_searchInv V f0 _ s s₁ hsi hup
  have hrw₁ := unitPropagate_reasonWF _ s s₁ hrw hup
  have hmu₁ := unitPropagate_mu V.length _ s s₁ hup
  rcases hff : isFormulaFalse s₁.m s₁.f with _ | cc
  · by_cases hl : s₁.m.len = s₁.vars.length
    · refine ⟨?_, ?_, ?_⟩
      · intro s' hstep
        unfold solveStep at hstep
        simp only [hup, hff] at hstep
        rw [if_pos hl] at hstep
        exact StepRes.noConfusion hstep
      · intro s' hstep
        unfold solveStep at hstep
        simp only [hup, hff] at hstep
        rw [if_pos hl] at hstep
        exact StepRes.noConfusion hstep
      · intro hstep
        unfold solveStep at hstep
        simp only [hup, hff] at hstep
        rw [if_pos hl] at hstep
        exact StepRes.noConfusion hstep
    · obtain ⟨lit, hsel⟩ := selectLiteral_ok_default s₁ ord hsi₁.2.2.2.2.2.2.2.2
      refine ⟨?_, ?_, ?_⟩
      · intro s' hstep
        unfold solveStep at hstep
        simp only [hup, hff] at hstep
        rw [if_neg hl] at hstep
        simp only [hsel] at hstep
        exact StepRes.noConfusion hstep
      · intro s' hstep
        unfold solveStep at hstep
        simp only [hup, hff] at hstep
        rw [if_neg hl] at hstep
        simp only [hsel] at hstep
        simp only [StepRes.nextD.injEq] at hstep
        rw [← hstep]
        refine ⟨⟨decisionStep_searchInv V f0 s₁ s₁ lit ord hsi₁ hff hl hord hsel, ?_⟩, ?_⟩
        · exact reasonWF_assert_decision s₁.m s₁.reasonMap lit hrw₁
        · exact lt_of_le_of_lt hmu₁ (muElems_lt_cons V.length ⟨lit, true⟩ s₁.m.elems)
      · intro hstep
        unfold solveStep at hstep
        simp only [hup, hff] at hstep
        rw [if_neg hl] at hstep
        simp only [hsel] at hstep
        exact StepRes.noConfusion hstep
  · by_cases hc0 : (applyConflict s₁ cc).m.currentLevel = 0
    · refine ⟨?_, ?_, ?_⟩
      · intro s' hstep
        unfold solveStep at hstep
        simp only [hup, hff] at hstep
        rw [if_pos hc0] at hstep
        exact StepRes.noConfusion hstep
      · intro s' hstep
        unfold solveStep at hstep
        simp only [hup, hff] at hstep
        rw [if_pos hc0] at hstep
        exact StepRes.noConfusion hstep
      · intro hstep
        unfold solveStep at hstep
        simp only [hup, hff] at hstep
        rw [if_pos hc0] at hstep
        exact StepRes.noConfusion hstep
    · obtain ⟨s₃, hUIP⟩ : ∃ s₃, applyExplainUIP ((applyConflict s₁ cc).m.len + 1)
          (applyConflict s₁ cc) = some s₃ := by
        have hm2 : (applyConflict s₁ cc).m = s₁.m := (applyConflict_coreEq s₁ cc).2.2.1
        have hcur1 : 1 ≤ s₁.m.currentLevel := by
          rw [hm2] at hc0
          omega
        have hex := conflict_entry V f0 s₁ cc hsi₁ hff hcur1
        obtain ⟨hainv, haL, haN⟩ := applyConflict_analysis s₁ cc hex
        refine applyExplainUIP_isSome _ (applyConflict s₁ cc)
          (by rw [hm2]; exact hsi₁.2.2.2.2.1) ?_ hainv haL (by omega) ?_
        · rw [hm2, (applyConflict_coreEq s₁ cc).2.2.2.1]
          exact hrw₁
        · intro pre d suf hdec hpre
          have hlens := congrArg List.length hdec
          simp only [List.length_append, List.length_cons] at hlens
          have hlen2 : (applyConflict s₁ cc).m.len = (applyConflict s₁ cc).m.elems.length := rfl
          omega
      have hsiN := conflictStep_searchInv V f0 s₁ s₃ cc hsi₁ hff hc0 hUIP
      have hrwmu := conflictStep_reasonWF_mu V f0 s₁ s₃ cc hsi₁ hrw₁ hff hc0 hUIP
      refine ⟨?_, ?_, ?_⟩
      · intro s' hstep
        unfold solveStep at hstep
        simp only [hup, hff] at hstep
        rw [if_neg hc0] at hstep
        simp only [hUIP] at hstep
        simp only [StepRes.next.injEq] at hstep
        rw [← hstep]
        exact ⟨⟨hsiN, hrwmu.1⟩, lt_of_le_of_lt hmu₁ hrwmu.2⟩
      · intro s' hstep
        unfold solveStep at hstep
        simp only [hup, hff] at hstep
        rw [if_neg hc0] at hstep
        simp only [hUIP] at hstep
        exact StepRes.noConfusion hstep
      · intro hstep
        unfold solveStep at hstep
        simp only [hup, hff] at hstep
        rw [if_neg hc0] at hstep
        simp only [hUIP] at hstep
        exact StepRes.noConfusion hstep

/-- The solve loop answers within `(|V|+1)^(|V|+1)` iterations: the measure
strictly increases at every continuation and is bounded by that quantity. -/
theorem solveLoop_isSome (V : List Int) (f0 : Formula) :
    ∀ (k : Nat) (ords : List (List Int)) (s : Solver), SolveInv V f0 s →
      (∀ o ∈ ords, o.Perm V) →
      (V.length + 1) ^ (V.length + 1) ≤ k + mu V.length s.m →
      ∃ r s', solveLoop k ords s = some (r, s') := by
  intro k
  induction k with
  | zero =>
      intro ords s hinv hords hbound
      exfalso
      have hlen : s.m.len ≤ V.length :=
        trail_len_le V s.m hinv.1.2.1 hinv.1.2.2.2.2.1 hinv.1.2.2.2.2.2.1
      have := mu_lt_bound V.length s.m hlen
      omega
  | succ n ih =>
      intro ords s hinv hords hbound
      have hord : (ords.headD s.vars).Perm V := by
        rcases ords with _ | ⟨o, os⟩
        · show s.vars.Perm V
          rw [hinv.1.1]
        · exact hords o (List.mem_cons_self o os)
      obtain ⟨hnext, hnextD, hnofail⟩ := solveStep_term V f0 (ords.headD s.vars) s hinv hord
      unfold solveLoop
      rcases hstep : solveStep (ords.headD s.vars) s with ⟨r₀, s₀⟩ | s₀ | s₀ | _ <;>
        simp only [hstep]
      · exact ⟨r₀, s₀, rfl⟩
      · obtain ⟨hinv', hmu'⟩ := hnext s₀ hstep
        exact ih ords s₀ hinv' hords (by omega)
      · obtain ⟨hinv', hmu'⟩ := hnextD s₀ hstep
        exact ih ords.tail s₀ hinv' (fun o ho => hords o (List.mem_of_mem_tail ho)) (by omega)
      · exact absurd hstep hnofail

/-- **C3** (termination).  `Solve` terminates on every finite formula of
nonzero literals, whatever variable-iteration orders the Go map produces:
each loop iteration either ends the search, or — by a decision or by a
backjump that asserts ¬L below the current level — strictly increases a
bounded measure under which level-0 facts and lower levels permanently
outweigh everything above, so an answer is reached in finitely many
iterations. -/
theorem c3_solve_terminates (f0 : Formula) (ords : List (List Int))
    (hnz : ∀ c ∈ f0, ∀ l ∈ c, l ≠ 0)
    (hords : ∀ o ∈ ords, o.Perm (addFormula newSolver f0).vars) :
    ∃ fuel r s', solve fuel ords (addFormula newSolver f0) = some (r, s') := by
  have hinv : SolveInv (addFormula newSolver f0).vars f0 (addFormula newSolver f0) :=
    ⟨searchInv_init f0 hnz, reasonWF_empty _ _ rfl⟩
  obtain ⟨r, s', hloop⟩ := solveLoop_isSome (addFormula newSolver f0).vars f0
    (((addFormula newSolver f0).vars.length + 1) ^ ((addFormula newSolver f0).vars.length + 1))
    ords (addFormula newSolver f0) hinv hords (by omega)
  refine ⟨((addFormula newSolver f0).vars.length + 1) ^
    ((addFormula newSolver f0).vars.length + 1), r, s', ?_⟩
  unfold solve
  rw [if_neg (by intro hcon; exact hcon rfl)]
  exact hloop

/-- Witness for C3: on the formula `[[4]]` some fuel returns an answer. -/
theorem c3_solve_terminates_witness :
    ∃ fuel r s', solve fuel [] (addFormula newSolver [[(4 : Int)]]) = some (r, s') :=
  c3_solve_terminates [[4]] [] (by decide) (fun o ho => absurd ho (List.not_mem_nil o))

end GoSat
